import Mathlib

/-!
# Verification of the CloudBuilder layout engine (`src/lib/awsDataToNodeEdge.py`)

Shallow embedding of the layout pipeline of `awsDataToNodeEdge.py`:
the Sugiyama phases (`_assign_layers`, `_order_nodes_by_barycenter`,
`_calculate_positions`, `_size_containers`, `apply_layout`), the converter
post-passes (`_resolve_container_collisions`,
`_resize_containers_to_fit_children`, `_check_node_overlaps`) and the
edge construction helpers (`_create_edge`, `_create_rt_subnet_edges`).

Python nodes are dictionaries `{id, position: {x, y}, width, height,
data: {parentId, isContainer, nestingDepth, resourceType: {id}}}`; we
flatten them into the `Node` structure below.  Coordinates are Python
floats, but every quantity the layout passes manipulate is produced from
the integer layout constants by `+`, `-`, `*`, `min` and `max`, so
coordinates are modelled exactly as integers; the single division in the
code base (the barycenter mean `sum(...) / len(...)`) is modelled exactly
in `ℚ`.  Python `list.sort` / `sorted` are stable; both are modelled by
the stable insertion sort `sSort`.
-/

structure Node where
  id : String
  x : ℤ
  y : ℤ
  w : ℤ
  h : ℤ
  parentId : Option String
  isContainer : Bool
  nestingDepth : Nat
  resourceType : String
deriving DecidableEq

structure EdgeR where
  id : String
  source : String
  target : String
  edgeType : String
deriving DecidableEq

/-- First-match lookup in an association list (entries are prepended, so the
first match is the most recently written one, mirroring Python dict writes). -/
def lookupA {β : Type} : List (String × β) → String → Option β
  | [], _ => none
  | (k, v) :: rest, i => if k = i then some v else lookupA rest i

/-- Stable insertion (`x` goes after every element `y` with `le y x`),
mirroring the behaviour of Python's stable sorts. -/
def sIns {α : Type} (le : α → α → Bool) (x : α) : List α → List α
  | [] => [x]
  | y :: ys => if le y x then y :: sIns le x ys else x :: y :: ys

/-- Stable sort (insertion sort, processing the input left to right). -/
def sSort {α : Type} (le : α → α → Bool) (l : List α) : List α :=
  l.foldl (fun acc x => sIns le x acc) []

/-- Minimum of `f` over a list, with default `d` for the empty list
(Python `min(gen, default=d)`; for nonempty lists the default is unused). -/
def minZ {α : Type} (f : α → ℤ) (d : ℤ) : List α → ℤ
  | [] => d
  | c :: cs => cs.foldl (fun m n => min m (f n)) (f c)

/-- Maximum of `f` over a list, with default `d` for the empty list. -/
def maxZ {α : Type} (f : α → ℤ) (d : ℤ) : List α → ℤ
  | [] => d
  | c :: cs => cs.foldl (fun m n => max m (f n)) (f c)

/-- `node['position']['y']` update (the only field the collision pass writes). -/
def setY (n : Node) (v : ℤ) : Node := { n with y := v }

/-! ## `_resolve_container_collisions` (lines 2923-2965)

```
for parent_id, containers in by_parent.items():
    if len(containers) < 2: continue
    for iteration in range(10):
        overlaps_found = False
        containers_sorted = sorted(containers, key=lambda n: n['position']['y'])
        for i in range(len(containers_sorted) - 1):
            c1, c2 = containers_sorted[i], containers_sorted[i + 1]
            if c1.y + c1.h > c2.y:
                c2.y = c1.y + c1.h + 20; overlaps_found = True
        if not overlaps_found: break
```
-/

/-- One adjacent-pair scan of the collision loop, continuing after `c1`.
Mirrors the `for i in range(len - 1)` loop: each pair is compared against the
already-updated predecessor, and the second element is pushed to
`bottom(first) + 20` on vertical overlap.  Also returns `overlaps_found`. -/
def scanPushAux (c1 : Node) : List Node → List Node × Bool
  | [] => ([c1], false)
  | c2 :: rest =>
    let pushed : Bool := decide (c1.y + c1.h > c2.y)
    let c2' := if c1.y + c1.h > c2.y then setY c2 (c1.y + c1.h + 20) else c2
    let r := scanPushAux c2' rest
    (c1 :: r.1, pushed || r.2)

/-- One full adjacent-pair scan over a sibling-container list. -/
def scanPush : List Node → List Node × Bool
  | [] => ([], false)
  | c :: rest => scanPushAux c rest

/-- Ascending-by-`y` comparison used by `sorted(containers, key=...y)`. -/
def yLe (a b : Node) : Bool := decide (a.y ≤ b.y)

/-- The bounded fixed-point loop (`for iteration in range(10)`): sort the
current sibling containers by `y`, scan adjacent pairs, stop early when a
scan pushes nothing. -/
def loopResolve : Nat → List Node → List Node
  | 0, g => g
  | Nat.succ k, g =>
    let s := sSort yLe g
    let r := scanPush s
    if r.2 then loopResolve k r.1 else r.1

/-- Collision resolution for the containers sharing one parent
(`if len(containers) < 2: continue`). -/
def resolveGroup (g : List Node) : List Node :=
  if g.length < 2 then g else loopResolve 10 g

/-- The sibling containers grouped under parent key `p`
(`by_parent` groups every container node by its raw `parentId`). -/
def sibContainers (ns : List Node) (p : Option String) : List Node :=
  ns.filter (fun n => n.isContainer && decide (n.parentId = p))

/-- `_resolve_container_collisions`: every container's `y` becomes its value
in the resolution of its own parent group; non-containers are untouched.
(The Python mutates the shared node dictionaries group by group; the groups
are disjoint, so each node's final `y` is determined by its own group.) -/
def resolve_container_collisions (ns : List Node) : List Node :=
  ns.map (fun n =>
    if n.isContainer then
      match (resolveGroup (sibContainers ns n.parentId)).find? (fun m => decide (m.id = n.id)) with
      | some m => setY n m.y
      | none => n
    else n)

/-- `y` of the node with a given id, if present (first occurrence). -/
def getNodeY (ns : List Node) (i : String) : Option ℤ :=
  (ns.find? (fun n => decide (n.id = i))).map (fun n => n.y)

example :
    getNodeY (resolve_container_collisions
      [⟨"A", 10, 0, 100, 100, some "P", true, 1, "subnet"⟩,
       ⟨"B", 10, 0, 100, 100, some "P", true, 1, "subnet"⟩]) "B" = some 120 := by
  decide

/-! ## `_resize_containers_to_fit_children` (lines 2967-3000)

```
padding = 30
containers = sorted([n for n in self.nodes if n.isContainer],
                    key=lambda n: n.nestingDepth, reverse=True)
for container in containers:
    children = [n for n in self.nodes if n.parentId == container.id]
    if not children: continue
    min_x = min(c.x for c in children); max_x = max(c.x + c.w for c in children)
    min_y = min(c.y for c in children); max_y = max(c.y + c.h for c in children)
    container.x = min_x - padding; container.y = min_y - padding
    container.w = (max_x - min_x) + 2*padding; container.h = (max_y - min_y) + 2*padding
```
-/

/-- The direct children of container id `cid` in the current node collection
(`[n for n in self.nodes if n['data'].get('parentId') == container['id']]`). -/
def childrenOf (st : List Node) (cid : String) : List Node :=
  st.filter (fun n => decide (n.parentId = some cid))

/-- One step of the resize loop: recompute the box of the container with id
`cid` from its children's current boxes (skipped when it has no children). -/
def fitChildren (st : List Node) (cid : String) : List Node :=
  let ch := childrenOf st cid
  if ch.isEmpty then st
  else
    let minX := minZ (fun n => n.x) 0 ch
    let maxX := maxZ (fun n => n.x + n.w) 0 ch
    let minY := minZ (fun n => n.y) 0 ch
    let maxY := maxZ (fun n => n.y + n.h) 0 ch
    st.map (fun n =>
      if n.id = cid then
        { n with x := minX - 30, y := minY - 30,
                 w := (maxX - minX) + 2 * 30, h := (maxY - minY) + 2 * 30 }
      else n)

/-- Descending-by-`nestingDepth` comparison
(`sorted(..., key=lambda n: n['data'].get('nestingDepth', 0), reverse=True)`,
which is stable among equal depths). -/
def depthGe (a b : Node) : Bool := decide (b.nestingDepth ≤ a.nestingDepth)

/-- The container processing order of the resize pass: all containers,
deepest first. -/
def containersByDepthDesc (ns : List Node) : List Node :=
  sSort depthGe (ns.filter (fun n => n.isContainer))

/-- `_resize_containers_to_fit_children`: fold the per-container resize step
over the containers in descending nesting-depth order. -/
def resize_containers_to_fit_children (ns : List Node) : List Node :=
  ((containersByDepthDesc ns).map (fun n => n.id)).foldl fitChildren ns

/-! ## `_check_node_overlaps` (lines 3034-3058) -/

/-- The AABB test of `_check_node_overlaps`:
`not (x1+w1 < x2 or x2+w2 < x1 or y1+h1 < y2 or y2+h2 < y1)`. -/
def nodesOverlap (n1 n2 : Node) : Bool :=
  !(decide (n1.x + n1.w < n2.x) || decide (n2.x + n2.w < n1.x) ||
    decide (n1.y + n1.h < n2.y) || decide (n2.y + n2.h < n1.y))

/-- `_check_node_overlaps`: every ordered pair `(i, j)` with `i < j` of nodes
sharing the same `parentId` whose boxes pass the AABB test. -/
def check_node_overlaps : List Node → List (String × String)
  | [] => []
  | n :: rest =>
    (rest.filter (fun m => decide (n.parentId = m.parentId) && nodesOverlap n m)).map
      (fun m => (n.id, m.id)) ++ check_node_overlaps rest

/-! ## `SugiyamaLayout.RESOURCE_LAYERS` and `_assign_layers` (lines 338-359, 398-420)

```
layers = {}
for node in nodes:
    resource_type = node['data'].get('resourceType', {}).get('id', 'unknown')
    if resource_type in RESOURCE_LAYERS:
        layers[node['id']] = RESOURCE_LAYERS[resource_type]
    else:
        if node['id'] in parent_map:
            layers[node['id']] = layers.get(parent_map[node['id']], 1) + 1
        else:
            layers[node['id']] = 0
```
-/

/-- The `RESOURCE_LAYERS` table of `SugiyamaLayout`. -/
def RESOURCE_LAYERS (t : String) : Option Nat :=
  if t = "region" then some 0
  else if t = "vpc" then some 1
  else if t = "subnet" then some 2
  else if t = "ec2" then some 3
  else if t = "lambda" then some 3
  else if t = "rds" then some 2
  else if t = "s3" then some 1
  else if t = "internetgateway" then some 1
  else if t = "natgateway" then some 2
  else if t = "routetable" then some 1
  else if t = "securityGroup" then some 2
  else if t = "elasticache" then some 2
  else if t = "dynamodb" then some 1
  else if t = "alb" then some 2
  else if t = "nlb" then some 2
  else if t = "cloudwatch" then some 1
  else if t = "cloudfront" then some 0
  else if t = "apigateway" then some 1
  else if t = "ebs" then some 3
  else if t = "snapshot" then some 2
  else none

/-- Python truthiness of a `parentId` (`if parent_id:` — `None` and the empty
string are falsy). -/
def truthyParent (n : Node) : Option String :=
  match n.parentId with
  | some s => if s = "" then none else some s
  | none => none

/-- The `parent_map` built at the top of `apply_layout`
(`parent_map[node['id']] = parent_id` for every node with a truthy parent;
later writes for a duplicate id win, hence the prepend). -/
def parentMapOf (ns : List Node) : List (String × String) :=
  ns.foldl (fun acc n =>
    match truthyParent n with
    | some p => (n.id, p) :: acc
    | none => acc) []

/-- `children_map` of `apply_layout`: the child ids recorded under parent `p`,
in node order. -/
def childrenIds (ns : List Node) (p : String) : List String :=
  (ns.filter (fun n => decide (truthyParent n = some p))).map (fun n => n.id)

/-- `_assign_layers`: one pass over the node list, building the `layers`
dict.  A node with a table-mapped resource type gets the table layer; an
unmapped node with an entry in `parent_map` gets
`layers.get(parent, 1) + 1` — the parent's layer if already assigned, the
default `1` otherwise; an unmapped parentless node gets `0`. -/
def assign_layers (ns : List Node) (pm : List (String × String)) : List (String × Nat) :=
  ns.foldl (fun acc n =>
    match RESOURCE_LAYERS n.resourceType with
    | some L => (n.id, L) :: acc
    | none =>
      match lookupA pm n.id with
      | some pid => (n.id, ((lookupA acc pid).getD 1) + 1) :: acc
      | none => (n.id, 0) :: acc) []

/-- `layers.get(node['id'], 0)` — the layer of a node, default 0. -/
def layerOf (layers : List (String × Nat)) (n : Node) : Nat :=
  (lookupA layers n.id).getD 0

/-! ## `_order_nodes_by_barycenter` (lines 422-460)

```
layer_nodes = defaultdict(list)
for node in nodes: layer_nodes[layers.get(node['id'], 0)].append(node)
for layer in sorted(layer_nodes.keys()):
    nodes_in_layer = layer_nodes[layer]
    barycenters = {}
    for node in nodes_in_layer:
        neighbor_positions = []
        for edge in edges:
            if edge['source'] == node['id']:
                neighbor = next((n for n in nodes if n['id'] == edge['target']), None)
                if neighbor and layers.get(neighbor['id'], layer) != layer:
                    neighbor_positions.append(neighbor['position'].get('x', 0))
            elif edge['target'] == node['id']:
                neighbor = next((n for n in nodes if n['id'] == edge['source']), None)
                if neighbor and layers.get(neighbor['id'], layer) != layer:
                    neighbor_positions.append(neighbor['position'].get('x', 0))
        barycenters[node['id']] = sum(...) / len(...) if neighbor_positions else node.x
    layer_nodes[layer].sort(key=lambda n: barycenters.get(n['id'], 0))
```
The sorted per-layer lists stay local to the function; it returns `None`.
-/

/-- The x-positions of the edge-connected neighbors of `n` that lie in a
layer different from `layer`, in edge order.  Mirrors the `for edge in
edges` loop body, including the `elif` (for a self-loop only the source
branch runs). -/
def neighborXs (ns : List Node) (es : List EdgeR) (layers : List (String × Nat))
    (layer : Nat) (n : Node) : List ℤ :=
  es.foldl (fun acc e =>
    if e.source = n.id then
      match ns.find? (fun m => decide (m.id = e.target)) with
      | some nb => if (lookupA layers nb.id).getD layer ≠ layer then acc ++ [nb.x] else acc
      | none => acc
    else if e.target = n.id then
      match ns.find? (fun m => decide (m.id = e.source)) with
      | some nb => if (lookupA layers nb.id).getD layer ≠ layer then acc ++ [nb.x] else acc
      | none => acc
    else acc) []

/-- The barycenter value of `n`: the mean of its cross-layer neighbors'
x-positions, or its own current x when it has none.  The mean is the one
exact division of the code base, so the value lives in `ℚ`. -/
def barycenter (ns : List Node) (es : List EdgeR) (layers : List (String × Nat))
    (layer : Nat) (n : Node) : ℚ :=
  let ps := neighborXs ns es layers layer n
  if ps.isEmpty then (n.x : ℚ)
  else ((ps.foldl (· + ·) 0 : ℤ) : ℚ) / (ps.length : ℚ)

/-- The `barycenters` dict for one layer (later writes shadow earlier ones). -/
def barycenters (ns : List Node) (es : List EdgeR) (layers : List (String × Nat))
    (layer : Nat) (inLayer : List Node) : List (String × ℚ) :=
  inLayer.foldl (fun acc n => (n.id, barycenter ns es layers layer n) :: acc) []

/-- The nodes of one layer, in node-collection order. -/
def nodesInLayer (ns : List Node) (layers : List (String × Nat)) (k : Nat) : List Node :=
  ns.filter (fun n => decide (layerOf layers n = k))

/-- `layer_nodes[layer].sort(key=lambda n: barycenters.get(n['id'], 0))` —
a stable ascending sort by stored barycenter value. -/
def sortLayerByBarycenter (ns : List Node) (es : List EdgeR)
    (layers : List (String × Nat)) (k : Nat) : List Node :=
  let inLayer := nodesInLayer ns layers k
  let bs := barycenters ns es layers k inLayer
  sSort (fun a b => decide ((lookupA bs a.id).getD 0 ≤ (lookupA bs b.id).getD 0)) inLayer

/-- Distinct keys of a list in first-appearance order (`defaultdict` key
insertion order). -/
def dedupFirst {α : Type} [DecidableEq α] (l : List α) : List α :=
  l.foldl (fun ks k => if k ∈ ks then ks else ks ++ [k]) []

/-- Ascending-`Nat` comparison for `sorted(layer_nodes.keys())`. -/
def natLe (a b : Nat) : Bool := decide (a ≤ b)

/-- The distinct layer values present, ascending. -/
def sortedLayerKeys (ns : List Node) (layers : List (String × Nat)) : List Nat :=
  sSort natLe (dedupFirst (ns.map (fun n => layerOf layers n)))

/-- `_order_nodes_by_barycenter`: the per-layer sorted lists the pass
computes.  The Python stores them back into its local `layer_nodes`
defaultdict and returns `None`; nothing else reads them, and no node or
edge is mutated. -/
def order_nodes_by_barycenter (ns : List Node) (es : List EdgeR)
    (layers : List (String × Nat)) : List (Nat × List Node) :=
  (sortedLayerKeys ns layers).map (fun k => (k, sortLayerByBarycenter ns es layers k))

/-! ## `_calculate_positions` (lines 462-543) -/

/-- First node with a given id (`next((n for n in nodes if n['id'] == i), None)`). -/
def nodeById (st : List Node) (i : String) : Option Node :=
  st.find? (fun n => decide (n.id = i))

/-- Write a node's position (`node['position']['x'] = ...; ...['y'] = ...`). -/
def setXY (st : List Node) (i : String) (px py : ℤ) : List Node :=
  st.map (fun n => if n.id = i then { n with x := px, y := py } else n)

/-- The `layer_y` table: each layer's y-band start; bands are separated by the
tallest member of the previous layer plus `LAYER_SPACING = 300`
(`max((n.get('height', 80) ...), default=80)`). -/
def layerYTable (ns : List Node) (layers : List (String × Nat)) : List (Nat × ℤ) :=
  ((sortedLayerKeys ns layers).foldl (fun acc k =>
    let grp := nodesInLayer ns layers k
    (acc.1 ++ [(k, acc.2)], acc.2 + maxZ (fun n => n.h) 80 grp + 300))
    (([] : List (Nat × ℤ)), (0 : ℤ))).1

/-- Look up a layer's y-band start. -/
def layerY (t : List (Nat × ℤ)) (k : Nat) : ℤ :=
  match t.find? (fun p => decide (p.1 = k)) with
  | some p => p.2
  | none => 0

/-- Positioning of one parent group whose parent node was found: children are
laid out left to right inside the parent from `parent.x + 30`, spaced by
`NODE_SPACING = 200`, clamped against the parent's right boundary, with a
`idx * 100` vertical offset. -/
def placeChildGroup (st : List Node) (mids : List String) (pn : Node) (ly : ℤ) :
    List Node :=
  let startX := pn.x + 30
  let maxRight := pn.x + pn.w
  mids.enum.foldl (fun st1 im =>
    match nodeById st1 im.2 with
    | some n =>
      let xpos := startX + (im.1 : ℤ) * (n.w + 200)
      let xpos' := if xpos + n.w > maxRight - 30 then maxRight - n.w - 30 else xpos
      setXY st1 im.2 xpos' (ly + (im.1 : ℤ) * 100)
    | none => st1) st

/-- Positioning of a root-level group: nodes are placed to the right of every
container (`max(current_x, max_container_right + 200)`), spaced by 200, with
an `idx * 20` vertical offset; returns the updated state and the new
`current_x`. -/
def placeRootGroup (st : List Node) (mids : List String) (curX : ℤ) (ly : ℤ) :
    List Node × ℤ :=
  let containerNodes := st.filter (fun n => n.isContainer)
  let mcr : ℤ := if containerNodes.isEmpty then 0
                 else maxZ (fun n => n.x + n.w) 0 containerNodes
  let startX := max curX (mcr + 200)
  let st' := mids.enum.foldl (fun st1 im =>
    match nodeById st1 im.2 with
    | some n =>
      setXY st1 im.2 (startX + (im.1 : ℤ) * (n.w + 200)) (ly + (im.1 : ℤ) * 20)
    | none => st1) st
  match mids.getLast? with
  | some lastId =>
    match nodeById st' lastId with
    | some lastN => (st', lastN.x + lastN.w + 200)
    | none => (st', curX)
  | none => (st', curX)

/-- Positioning of one layer: group the layer's members by
`parent_map.get(id, 'root')` (keys in first-appearance order), then place
each group — inside its parent when the parent node exists in the current
collection, as a root-level group otherwise.  `current_x` starts at 20. -/
def placeLayer (ns : List Node) (layers : List (String × Nat))
    (pm : List (String × String)) (lyt : List (Nat × ℤ)) (st : List Node) (k : Nat) :
    List Node :=
  let memberIds := (nodesInLayer ns layers k).map (fun n => n.id)
  let keys := dedupFirst (memberIds.map (fun i => lookupA pm i))
  (keys.foldl (fun acc key =>
    let mids := memberIds.filter (fun i => decide (lookupA pm i = key))
    match key with
    | some pid =>
      match nodeById acc.1 pid with
      | some pn => (placeChildGroup acc.1 mids pn (layerY lyt k), acc.2)
      | none => placeRootGroup acc.1 mids acc.2 (layerY lyt k)
    | none => placeRootGroup acc.1 mids acc.2 (layerY lyt k))
    (st, (20 : ℤ))).1

/-- `_calculate_positions`: compute the layer bands, then position every
layer in ascending layer order. -/
def calculate_positions (ns : List Node) (layers : List (String × Nat))
    (pm : List (String × String)) : List Node :=
  let lyt := layerYTable ns layers
  (sortedLayerKeys ns layers).foldl (placeLayer ns layers pm lyt) ns

/-! ## `SugiyamaLayout._size_containers` (lines 545-578)

Identical shape to `_resize_containers_to_fit_children`, except that the
children are looked up through the `children_map` built at the start of
`apply_layout`, and the padding constant is `CONTAINER_PADDING = 30`. -/

/-- One step of `_size_containers` for the container with id `cid`. -/
def sizeStep (ns0 : List Node) (st : List Node) (cid : String) : List Node :=
  let chIds := childrenIds ns0 cid
  if chIds.isEmpty then st
  else
    let ch := st.filter (fun n => decide (n.id ∈ chIds))
    if ch.isEmpty then st
    else
      let minX := minZ (fun n => n.x) 0 ch
      let maxX := maxZ (fun n => n.x + n.w) 0 ch
      let minY := minZ (fun n => n.y) 0 ch
      let maxY := maxZ (fun n => n.y + n.h) 0 ch
      st.map (fun n =>
        if n.id = cid then
          { n with x := minX - 30, y := minY - 30,
                   w := (maxX - minX) + 2 * 30, h := (maxY - minY) + 2 * 30 }
        else n)

/-- `_size_containers`: resize all containers, deepest first. -/
def size_containers (ns0 : List Node) (st : List Node) : List Node :=
  ((containersByDepthDesc st).map (fun n => n.id)).foldl (sizeStep ns0) st

/-! ## `SugiyamaLayout.apply_layout` (lines 366-396)

```
parent_map, children_map = ...build from nodes...
layers = SugiyamaLayout._assign_layers(nodes, parent_map)
SugiyamaLayout._order_nodes_by_barycenter(nodes, edges, layers)  # returns None
SugiyamaLayout._calculate_positions(nodes, layers, parent_map, children_map)
SugiyamaLayout._size_containers(nodes, children_map)
return nodes, edges
```
-/

/-- `apply_layout`, phases 1-4.  Phase 2 (`_order_nodes_by_barycenter`) is
executed for its (nonexistent) side effects: it sorts lists local to itself
and returns `None`, so its result is bound and discarded here, exactly as
the source discards it. -/
def apply_layout (ns : List Node) (es : List EdgeR) : List Node × List EdgeR :=
  let pm := parentMapOf ns
  let layers := assign_layers ns pm
  let _ordered := order_nodes_by_barycenter ns es layers
  let ns1 := calculate_positions ns layers pm
  let ns2 := size_containers ns ns1
  (ns2, es)

/-- `apply_layout` with the sibling-ordering phase deleted: phases 1, 3, 4. -/
def apply_layout_without_ordering (ns : List Node) (es : List EdgeR) :
    List Node × List EdgeR :=
  let pm := parentMapOf ns
  let layers := assign_layers ns pm
  let ns1 := calculate_positions ns layers pm
  let ns2 := size_containers ns ns1
  (ns2, es)

/-! ## `_create_edge` (lines 1925-1943) and `_create_rt_subnet_edges` (lines 1824-1842)

`_create_edge` unconditionally appends
`{id: f"{edge_type}-{source}-{target}", source, target, ...}` to
`self.edges` (the style dict and the waypoint payload do not involve the
endpoints and are not modelled).  `_create_rt_subnet_edges` guards every
call: the route-table id must resolve through `rt_node_map` and the
association's subnet id must be truthy and present in `subnet_node_map`.
-/

/-- The converter state the edge builders touch: the node and edge
collections plus the `rt_node_map` and `subnet_node_map` side indices
(`subnet_node_map[subnet_id] = (subnet_node_id, vpc_node_id)`). -/
structure ConvState where
  nodes : List Node
  edges : List EdgeR
  rtNodeMap : List (String × String)
  subnetNodeMap : List (String × (String × String))
deriving DecidableEq

/-- `_create_edge`: append an edge with the standard id format. -/
def create_edge (st : ConvState) (source target edgeType : String) : ConvState :=
  { st with edges := st.edges ++
      [{ id := edgeType ++ "-" ++ source ++ "-" ++ target,
         source := source, target := target, edgeType := edgeType }] }

/-- One raw route-table record: its `RouteTableId` and the `SubnetId` of
each entry of its `Associations` list (either may be absent). -/
structure RouteTableRec where
  routeTableId : Option String
  associationSubnetIds : List (Option String)
deriving DecidableEq

/-- Python truthiness of an optional string field. -/
def truthyStr : Option String → Option String
  | some s => if s = "" then none else some s
  | none => none

/-- `_create_rt_subnet_edges`: for each record, skip it unless the
route-table id resolves through `rt_node_map`; then for each association,
emit an `rt-to-subnet` edge when the subnet id is truthy and present in
`subnet_node_map` (a reference to a subnet id absent from the map is
silently dropped). -/
def create_rt_subnet_edges (st : ConvState) (rts : List RouteTableRec) : ConvState :=
  rts.foldl (fun st1 rt =>
    match rt.routeTableId.bind (lookupA st1.rtNodeMap) with
    | none => st1
    | some rtNodeId =>
      rt.associationSubnetIds.foldl (fun st2 a =>
        match truthyStr a with
        | none => st2
        | some sid =>
          match lookupA st2.subnetNodeMap sid with
          | some pr => create_edge st2 rtNodeId pr.1 "rt-to-subnet"
          | none => st2) st1) st

/-! ## Concrete scratch checks (sanity only, replaced by the claim theorems) -/

example :
    apply_layout [⟨"R", 0, 0, 600, 400, none, true, 0, "region"⟩] [] =
    apply_layout_without_ordering [⟨"R", 0, 0, 600, 400, none, true, 0, "region"⟩] [] := rfl

example :
    check_node_overlaps (resolve_container_collisions
      [⟨"P", 0, 0, 300, 300, none, true, 0, "vpc"⟩,
       ⟨"L1", 10, 10, 50, 50, some "P", false, 1, "ec2"⟩,
       ⟨"L2", 10, 10, 50, 50, some "P", false, 1, "ec2"⟩]) = [("L1", "L2")] := by decide

example :
    lookupA (assign_layers
      [⟨"c", 0, 0, 10, 10, some "p", false, 1, "mystery"⟩,
       ⟨"p", 0, 0, 10, 10, none, false, 0, "mystery"⟩]
      (parentMapOf
      [⟨"c", 0, 0, 10, 10, some "p", false, 1, "mystery"⟩,
       ⟨"p", 0, 0, 10, 10, none, false, 0, "mystery"⟩])) "c" = some 2 := by decide

example :
    (resize_containers_to_fit_children
      [⟨"P", 0, 0, 300, 300, none, true, 0, "vpc"⟩,
       ⟨"L", 100, 50, 40, 20, some "P", false, 1, "ec2"⟩]).map (fun n => (n.x, n.y, n.w, n.h)) =
    [(70, 20, 100, 80), (100, 50, 40, 20)] := by decide

/-! ## Generic facts about the stable sort -/

theorem sIns_perm {α : Type} (le : α → α → Bool) (x : α) (l : List α) :
    (sIns le x l).Perm (x :: l) := by
  induction l with
  | nil => exact List.Perm.refl _
  | cons y ys ih =>
    simp only [sIns]
    by_cases h : le y x = true
    · rw [if_pos h]
      exact (ih.cons y).trans (List.Perm.swap x y ys)
    · rw [if_neg h]

theorem sortFold_perm {α : Type} (le : α → α → Bool) :
    ∀ (l acc : List α), (l.foldl (fun a x => sIns le x a) acc).Perm (acc ++ l) := by
  intro l
  induction l with
  | nil => intro acc; simp
  | cons x xs ih =>
    intro acc
    simp only [List.foldl_cons]
    exact (ih (sIns le x acc)).trans
      ((((sIns_perm le x acc)).append_right xs).trans (List.perm_middle.symm))

theorem sSort_perm {α : Type} (le : α → α → Bool) (l : List α) :
    (sSort le l).Perm l := by
  simpa using sortFold_perm le l []

theorem mem_sIns {α : Type} {le : α → α → Bool} {x a : α} {l : List α} :
    a ∈ sIns le x l ↔ a = x ∨ a ∈ l := by
  rw [(sIns_perm le x l).mem_iff, List.mem_cons]

theorem sIns_pairwise {α : Type} {le : α → α → Bool}
    (total : ∀ a b, le a b || le b a)
    (htrans : ∀ a b c, le a b = true → le b c = true → le a c = true)
    (x : α) {l : List α} (h : l.Pairwise (fun a b => le a b = true)) :
    (sIns le x l).Pairwise (fun a b => le a b = true) := by
  induction l with
  | nil => simp [sIns]
  | cons y ys ih =>
    rcases List.pairwise_cons.mp h with ⟨hy, hys⟩
    simp only [sIns]
    by_cases hyx : le y x = true
    · simp only [hyx, if_true]
      refine List.pairwise_cons.mpr ⟨?_, ih hys⟩
      intro z hz
      rcases mem_sIns.mp hz with rfl | hz
      · exact hyx
      · exact hy z hz
    · simp only [hyx, if_false]
      have hxy : le x y = true := by
        have := total y x
        simp [hyx] at this
        exact this
      refine List.pairwise_cons.mpr ⟨?_, h⟩
      intro z hz
      rcases List.mem_cons.mp hz with rfl | hz
      · exact hxy
      · exact htrans x y z hxy (hy z hz)

theorem sSort_pairwise {α : Type} {le : α → α → Bool}
    (total : ∀ a b, le a b || le b a)
    (htrans : ∀ a b c, le a b = true → le b c = true → le a c = true)
    (l : List α) : (sSort le l).Pairwise (fun a b => le a b = true) := by
  suffices H : ∀ (l acc : List α), acc.Pairwise (fun a b => le a b = true) →
      (l.foldl (fun a x => sIns le x a) acc).Pairwise (fun a b => le a b = true) by
    exact H l [] (List.Pairwise.nil)
  intro l
  induction l with
  | nil => intro acc hacc; simpa using hacc
  | cons x xs ih =>
    intro acc hacc
    simp only [List.foldl_cons]
    exact ih _ (sIns_pairwise total htrans x hacc)

theorem sIns_of_all_le {α : Type} {le : α → α → Bool} {x : α} :
    ∀ {l : List α}, (∀ a ∈ l, le a x = true) → sIns le x l = l ++ [x] := by
  intro l
  induction l with
  | nil => intro _; rfl
  | cons y ys ih =>
    intro h
    simp only [sIns, h y (List.mem_cons_self y ys), if_true, List.cons_append,
      List.cons.injEq, true_and]
    exact ih (fun a ha => h a (List.mem_cons_of_mem y ha))

theorem sortFold_of_sorted {α : Type} {le : α → α → Bool} :
    ∀ (l acc : List α), (acc ++ l).Pairwise (fun a b => le a b = true) →
      l.foldl (fun a x => sIns le x a) acc = acc ++ l := by
  intro l
  induction l with
  | nil => intro acc _; simp
  | cons x xs ih =>
    intro acc h
    have hax : ∀ a ∈ acc, le a x = true := by
      intro a ha
      exact (List.pairwise_append.mp h).2.2 a ha x (List.mem_cons_self x xs)
    simp only [List.foldl_cons]
    rw [sIns_of_all_le hax, ih (acc ++ [x]) (by simpa using h)]
    simp

/-- A weakly sorted list is left unchanged by the stable sort. -/
theorem sSort_of_sorted {α : Type} {le : α → α → Bool} {l : List α}
    (h : l.Pairwise (fun a b => le a b = true)) : sSort le l = l := by
  simpa using sortFold_of_sorted l [] (by simpa using h)

theorem sIns_congr {α : Type} {le : α → α → Bool} {R : α → α → Prop}
    (hle : ∀ a a2 b b2, R a a2 → R b b2 → le a b = le a2 b2) :
    ∀ {l l2 : List α}, List.Forall₂ R l l2 → ∀ {x x2 : α}, R x x2 →
      List.Forall₂ R (sIns le x l) (sIns le x2 l2) := by
  intro l l2 hl
  induction hl with
  | nil => intro x x2 hx; exact List.Forall₂.cons hx List.Forall₂.nil
  | @cons y y2 ys ys2 hy hys ih =>
    intro x x2 hx
    simp only [sIns]
    have hc := hle y y2 x x2 hy hx
    by_cases hyx : le y x = true
    · have h2 : le y2 x2 = true := by rw [← hc]; exact hyx
      rw [if_pos hyx, if_pos h2]
      exact List.Forall₂.cons hy (ih hx)
    · have h2 : ¬ le y2 x2 = true := by rw [← hc]; exact hyx
      rw [if_neg hyx, if_neg h2]
      exact List.Forall₂.cons hx (List.Forall₂.cons hy hys)

theorem sSort_congr {α : Type} {le : α → α → Bool} {R : α → α → Prop}
    (hle : ∀ a a2 b b2, R a a2 → R b b2 → le a b = le a2 b2)
    {l l2 : List α} (h : List.Forall₂ R l l2) :
    List.Forall₂ R (sSort le l) (sSort le l2) := by
  suffices H : ∀ {l l2 acc acc2 : List α}, List.Forall₂ R l l2 →
      List.Forall₂ R acc acc2 →
      List.Forall₂ R (l.foldl (fun a x => sIns le x a) acc)
        (l2.foldl (fun a x => sIns le x a) acc2) by
    exact H h List.Forall₂.nil
  intro l l2 acc acc2 hl
  induction hl generalizing acc acc2 with
  | nil => intro hacc; simpa using hacc
  | cons hx hxs ih =>
    intro hacc
    simp only [List.foldl_cons]
    exact ih (sIns_congr hle hacc hx)

/-! ## Structural facts about the collision pass -/

/-- Everything of a node except its `y` (the only field the collision pass
writes). -/
def skelC (n : Node) : Node := { n with y := 0 }

theorem skelC_setY (n : Node) (v : ℤ) : skelC (setY n v) = skelC n := rfl

theorem skelC_id (n : Node) : (skelC n).id = n.id := rfl

theorem scanPushAux_fst (c : Node) (l : List Node) :
    ∃ t, (scanPushAux c l).1 = c :: t := by
  cases l with
  | nil => exact ⟨[], rfl⟩
  | cons c2 rest => exact ⟨_, rfl⟩

theorem scanPushAux_map_skelC :
    ∀ (l : List Node) (c : Node),
      ((scanPushAux c l).1).map skelC = skelC c :: l.map skelC := by
  intro l
  induction l with
  | nil => intro c; rfl
  | cons c2 rest ih =>
    intro c
    simp only [scanPushAux, List.map_cons]
    by_cases hc : c.y + c.h > c2.y
    · rw [if_pos hc]
      rw [ih (setY c2 (c.y + c.h + 20))]
      rw [skelC_setY]
    · rw [if_neg hc]
      rw [ih c2]

theorem scanPush_map_skelC (l : List Node) :
    ((scanPush l).1).map skelC = l.map skelC := by
  cases l with
  | nil => rfl
  | cons c rest => exact scanPushAux_map_skelC rest c

/-- Vertical separation: the first box ends (weakly) above where the second
one starts. -/
def vsep (a b : Node) : Prop := a.y + a.h ≤ b.y

theorem scanPushAux_chain :
    ∀ (l : List Node) (c : Node), List.Chain' vsep (scanPushAux c l).1 := by
  intro l
  induction l with
  | nil => intro c; simp [scanPushAux, List.chain'_singleton]
  | cons c2 rest ih =>
    intro c
    simp only [scanPushAux]
    by_cases hc : c.y + c.h > c2.y
    · rw [if_pos hc]
      refine List.chain'_cons'.mpr ⟨?_, ih (setY c2 (c.y + c.h + 20))⟩
      intro b hb
      obtain ⟨t, ht⟩ := scanPushAux_fst (setY c2 (c.y + c.h + 20)) rest
      rw [ht] at hb
      simp only [List.head?_cons, Option.mem_def, Option.some.injEq] at hb
      subst hb
      show c.y + c.h ≤ (setY c2 (c.y + c.h + 20)).y
      show c.y + c.h ≤ c.y + c.h + 20
      omega
    · rw [if_neg hc]
      refine List.chain'_cons'.mpr ⟨?_, ih c2⟩
      intro b hb
      obtain ⟨t, ht⟩ := scanPushAux_fst c2 rest
      rw [ht] at hb
      simp only [List.head?_cons, Option.mem_def, Option.some.injEq] at hb
      subst hb
      show c.y + c.h ≤ c2.y
      omega

theorem scanPush_chain (l : List Node) : List.Chain' vsep (scanPush l).1 := by
  cases l with
  | nil => simp [scanPush]
  | cons c rest => exact scanPushAux_chain rest c

theorem loopResolve_map_skelC_perm :
    ∀ (k : Nat) (g : List Node),
      ((loopResolve k g).map skelC).Perm (g.map skelC) := by
  intro k
  induction k with
  | zero => intro g; exact List.Perm.refl _
  | succ k ih =>
    intro g
    simp only [loopResolve]
    have hsort : ((sSort yLe g).map skelC).Perm (g.map skelC) :=
      (sSort_perm yLe g).map skelC
    have hscan : ((scanPush (sSort yLe g)).1).map skelC = (sSort yLe g).map skelC :=
      scanPush_map_skelC _
    by_cases hp : (scanPush (sSort yLe g)).2 = true
    · rw [if_pos hp]
      exact (ih _).trans (hscan ▸ hsort)
    · rw [if_neg hp]
      exact hscan ▸ hsort

theorem loopResolve_chain :
    ∀ (k : Nat) (g : List Node), List.Chain' vsep (loopResolve (Nat.succ k) g) := by
  intro k
  induction k with
  | zero =>
    intro g
    simp only [loopResolve]
    by_cases hp : (scanPush (sSort yLe g)).2 = true
    · rw [if_pos hp]; exact scanPush_chain _
    · rw [if_neg hp]; exact scanPush_chain _
  | succ k ih =>
    intro g
    show List.Chain' vsep
      (if (scanPush (sSort yLe g)).2 then loopResolve (Nat.succ k) (scanPush (sSort yLe g)).1
       else (scanPush (sSort yLe g)).1)
    by_cases hp : (scanPush (sSort yLe g)).2 = true
    · rw [if_pos hp]; exact ih _
    · rw [if_neg hp]; exact scanPush_chain _

theorem resolveGroup_map_skelC_perm (g : List Node) :
    ((resolveGroup g).map skelC).Perm (g.map skelC) := by
  unfold resolveGroup
  by_cases hlen : g.length < 2
  · rw [if_pos hlen]
  · rw [if_neg hlen]
    exact loopResolve_map_skelC_perm 10 g

theorem resolveGroup_chain (g : List Node) : List.Chain' vsep (resolveGroup g) := by
  unfold resolveGroup
  by_cases hlen : g.length < 2
  · rw [if_pos hlen]
    match g, hlen with
    | [], _ => exact List.chain'_nil
    | [a], _ => exact List.chain'_singleton a
    | a :: b :: t, hl => exact absurd hl (by simp [List.length])
  · rw [if_neg hlen]
    exact loopResolve_chain 9 g

theorem chain_vsep_head :
    ∀ (l : List Node) (a : Node), List.Chain' vsep (a :: l) →
      (∀ n ∈ a :: l, 0 ≤ n.h) → ∀ b ∈ l, vsep a b := by
  intro l
  induction l with
  | nil => intro a _ _ b hb; cases hb
  | cons c l2 ih =>
    intro a hc hh b hb
    have hac : vsep a c := (List.chain'_cons.mp hc).1
    rcases List.mem_cons.mp hb with rfl | hb2
    · exact hac
    · have hcb : vsep c b := by
        refine ih c (List.chain'_cons.mp hc).2 ?_ b hb2
        intro n hn
        exact hh n (List.mem_cons_of_mem a hn)
      have hch : 0 ≤ c.h := hh c (by simp)
      show a.y + a.h ≤ b.y
      have h1 : a.y + a.h ≤ c.y := hac
      have h2 : c.y + c.h ≤ b.y := hcb
      omega

theorem chain_vsep_pairwise :
    ∀ (l : List Node), List.Chain' vsep l → (∀ n ∈ l, 0 ≤ n.h) → l.Pairwise vsep := by
  intro l
  induction l with
  | nil => intro _ _; exact List.Pairwise.nil
  | cons a l2 ih =>
    intro hc hh
    refine List.pairwise_cons.mpr ⟨chain_vsep_head l2 a hc hh, ?_⟩
    exact ih hc.tail (fun n hn => hh n (List.mem_cons_of_mem a hn))

theorem setY_y (n : Node) (v : ℤ) : (setY n v).y = v := rfl

theorem setY_self (n : Node) : setY n n.y = n := rfl

theorem skelC_eq_h {m n : Node} (h : skelC m = skelC n) : m.h = n.h := by
  have := congrArg Node.h h
  simpa [skelC] using this

/-- For a container node of the collection, the resolved group of its parent
contains a unique node with its id; `find?` returns it, and it agrees with
the original on every field except `y`. -/
theorem resolve_find_container (ns : List Node)
    (hids : (ns.map Node.id).Nodup) (n : Node) (hn : n ∈ ns)
    (hc : n.isContainer = true) :
    ∃ m, (resolveGroup (sibContainers ns n.parentId)).find?
        (fun m2 => decide (m2.id = n.id)) = some m ∧
      m ∈ resolveGroup (sibContainers ns n.parentId) ∧ skelC m = skelC n := by
  have hgsub : List.Sublist (sibContainers ns n.parentId) ns := List.filter_sublist ns
  have hgid : ((sibContainers ns n.parentId).map Node.id).Nodup :=
    hids.sublist (hgsub.map Node.id)
  have hng : n ∈ sibContainers ns n.parentId :=
    List.mem_filter.mpr ⟨hn, by simp [hc]⟩
  have hperm : ((resolveGroup (sibContainers ns n.parentId)).map skelC).Perm
      ((sibContainers ns n.parentId).map skelC) :=
    resolveGroup_map_skelC_perm _
  have hmapid : ∀ l : List Node, l.map Node.id = (l.map skelC).map Node.id := by
    intro l
    rw [List.map_map]
    exact (List.map_congr_left (fun a _ => rfl))
  have hidperm : ((resolveGroup (sibContainers ns n.parentId)).map Node.id).Perm
      ((sibContainers ns n.parentId).map Node.id) := by
    rw [hmapid (resolveGroup (sibContainers ns n.parentId)),
      hmapid (sibContainers ns n.parentId)]
    exact hperm.map Node.id
  have hmemid : n.id ∈ (resolveGroup (sibContainers ns n.parentId)).map Node.id :=
    hidperm.mem_iff.mpr (List.mem_map_of_mem Node.id hng)
  obtain ⟨m0, hm0r, hm0id⟩ := List.mem_map.mp hmemid
  have hfind : ((resolveGroup (sibContainers ns n.parentId)).find?
      (fun m2 => decide (m2.id = n.id))).isSome :=
    List.find?_isSome.mpr ⟨m0, hm0r, by simp [hm0id]⟩
  obtain ⟨m, hm⟩ := Option.isSome_iff_exists.mp hfind
  have hmr : m ∈ resolveGroup (sibContainers ns n.parentId) :=
    List.mem_of_find?_eq_some hm
  have hmid : m.id = n.id := by simpa using List.find?_some hm
  have hskmem : skelC m ∈ (sibContainers ns n.parentId).map skelC :=
    hperm.subset (List.mem_map_of_mem skelC hmr)
  obtain ⟨u, hug, husk⟩ := List.mem_map.mp hskmem
  have huid : u.id = n.id := by
    rw [← skelC_id u, husk, skelC_id]
    exact hmid
  have hun : u = n := List.inj_on_of_nodup_map hgid hug hng huid
  exact ⟨m, hm, hmr, by rw [← husk, hun]⟩

/-- Every element of a resolved sibling group has the height of a container
of the collection. -/
theorem resolveGroup_h_nonneg (ns : List Node)
    (hh : ∀ n ∈ ns, n.isContainer = true → 0 ≤ n.h) (p : Option String) :
    ∀ m ∈ resolveGroup (sibContainers ns p), 0 ≤ m.h := by
  intro m hm
  have hskmem : skelC m ∈ (sibContainers ns p).map skelC :=
    (resolveGroup_map_skelC_perm _).subset (List.mem_map_of_mem skelC hm)
  obtain ⟨u, hug, husk⟩ := List.mem_map.mp hskmem
  obtain ⟨huns, hupred⟩ := List.mem_filter.mp hug
  have hupred2 : u.isContainer = true ∧ u.parentId = p := by simpa using hupred
  have huc : u.isContainer = true := hupred2.1
  have : m.h = u.h := skelC_eq_h husk.symm
  rw [this]
  exact hh u huns huc

theorem setY_id (n : Node) (v : ℤ) : (setY n v).id = n.id := rfl

theorem setY_h (n : Node) (v : ℤ) : (setY n v).h = n.h := rfl

theorem setY_parentId (n : Node) (v : ℤ) : (setY n v).parentId = n.parentId := rfl

theorem skelC_eq_id {m n : Node} (h : skelC m = skelC n) : m.id = n.id := by
  have := congrArg Node.id h
  simpa [skelC] using this

theorem scanPushAux_length (l : List Node) (c : Node) :
    ((scanPushAux c l).1).length = l.length + 1 := by
  have := congrArg List.length (scanPushAux_map_skelC l c)
  simpa using this

/-- Default node for the total `getD` indexing used in the C2 statement. -/
def dNode : Node := ⟨"", 0, 0, 0, 0, none, false, 0, ""⟩

/-- Positional characterization of one collision scan: entry `i + 1` of the
output is pushed to `bottom + 20` of the (already updated) entry `i` exactly
when that bottom exceeds the input entry's top, and keeps the input entry's
`y` otherwise. -/
theorem scanPushAux_getD :
    ∀ (l : List Node) (c : Node) (i : Nat), i + 1 < ((scanPushAux c l).1).length →
      (((scanPushAux c l).1).getD (i + 1) dNode).y =
        (if (((scanPushAux c l).1).getD i dNode).y +
              (((scanPushAux c l).1).getD i dNode).h > ((c :: l).getD (i + 1) dNode).y
         then (((scanPushAux c l).1).getD i dNode).y +
              (((scanPushAux c l).1).getD i dNode).h + 20
         else ((c :: l).getD (i + 1) dNode).y) := by
  intro l
  induction l with
  | nil =>
    intro c i hi
    rw [scanPushAux_length] at hi
    simp at hi
  | cons c2 rest ih =>
    intro c i hi
    have hshape : (scanPushAux c (c2 :: rest)).1 =
        c :: (scanPushAux (if c.y + c.h > c2.y then setY c2 (c.y + c.h + 20) else c2) rest).1 := by
      simp only [scanPushAux]
    rw [hshape] at hi ⊢
    cases i with
    | zero =>
      obtain ⟨t, ht⟩ := scanPushAux_fst
        (if c.y + c.h > c2.y then setY c2 (c.y + c.h + 20) else c2) rest
      rw [ht]
      simp only [List.getD_cons_succ, List.getD_cons_zero]
      by_cases hc : c.y + c.h > c2.y
      · rw [if_pos hc, if_pos hc]
        rfl
      · rw [if_neg hc, if_neg hc]
    | succ j =>
      simp only [List.getD_cons_succ]
      have hlen : j + 1 < ((scanPushAux
          (if c.y + c.h > c2.y then setY c2 (c.y + c.h + 20) else c2) rest).1).length := by
        simpa using Nat.lt_of_succ_lt_succ hi
      have := ih (if c.y + c.h > c2.y then setY c2 (c.y + c.h + 20) else c2) j hlen
      rw [this]
      simp only [List.getD_cons_succ]

/-- The scenario input of C2: two sibling containers, both at `y = 0`,
height 100, under the same parent. -/
def scenarioB : List Node :=
  [⟨"A", 10, 0, 100, 100, some "P", true, 1, "subnet"⟩,
   ⟨"B", 10, 0, 100, 100, some "P", true, 1, "subnet"⟩]

/-- **C2.** The collision pass sorts each sibling-container group ascending
by top `y` and scans adjacent pairs; whenever the (already updated) first
container's bottom exceeds the second container's top, the second
container's `y` becomes the first's bottom plus the minimum gap 20 — a push
of `overlap + minimum_gap`; otherwise the second container keeps its `y`.
In particular, for two sibling containers both initially at `y = 0` with
height 100 (scenario B), the second container's `y` after
`_resolve_container_collisions` is 120 ≥ 120. -/
theorem c2_scan_push_rule_and_scenarioB :
    (∀ (g : List Node) (i : Nat),
        i + 1 < ((scanPush (sSort yLe g)).1).length →
        (((scanPush (sSort yLe g)).1).getD (i + 1) dNode).y =
          (if (((scanPush (sSort yLe g)).1).getD i dNode).y +
                (((scanPush (sSort yLe g)).1).getD i dNode).h >
                ((sSort yLe g).getD (i + 1) dNode).y
           then (((scanPush (sSort yLe g)).1).getD i dNode).y +
                (((scanPush (sSort yLe g)).1).getD i dNode).h + 20
           else ((sSort yLe g).getD (i + 1) dNode).y)) ∧
    getNodeY (resolve_container_collisions scenarioB) "B" = some 120 ∧ (120 : ℤ) ≤ 120 := by
  constructor
  · intro g i hi
    cases hs : sSort yLe g with
    | nil =>
      rw [hs] at hi
      simp [scanPush] at hi
    | cons c rest =>
      rw [hs] at hi
      exact scanPushAux_getD rest c i hi
  · constructor
    · decide
    · decide

/-- Witness for C2: the scan rule instantiated on scenario B's sorted group
at the first adjacent pair. -/
theorem c2_scan_push_rule_witness :
    (((scanPush (sSort yLe scenarioB)).1).getD 1 dNode).y =
      (if (((scanPush (sSort yLe scenarioB)).1).getD 0 dNode).y +
            (((scanPush (sSort yLe scenarioB)).1).getD 0 dNode).h >
            ((sSort yLe scenarioB).getD 1 dNode).y
       then (((scanPush (sSort yLe scenarioB)).1).getD 0 dNode).y +
            (((scanPush (sSort yLe scenarioB)).1).getD 0 dNode).h + 20
       else ((sSort yLe scenarioB).getD 1 dNode).y) :=
  c2_scan_push_rule_and_scenarioB.1 scenarioB 0 (by decide)

/-- **C1.** The claim (and the spec's translate-on-move invariant) say a push
translates every descendant of the pushed container by the same y-offset.
The code pushes only the container itself: here sibling containers `A`
(y 0, h 100) and `B` (y 50, h 100) under `P` overlap, `B` is pushed from
y = 50 to y = 120 (+70), while its child `D` keeps y = 60 — `D`'s position
relative to `B` changes from +10 to −60, violating the claim.  Evaluation of
`_resolve_container_collisions` at this failing input. -/
theorem c1_push_moves_container_not_descendants :
    getNodeY (resolve_container_collisions
      [⟨"P", 0, 0, 400, 400, none, true, 0, "vpc"⟩,
       ⟨"A", 10, 0, 100, 100, some "P", true, 1, "subnet"⟩,
       ⟨"B", 10, 50, 100, 100, some "P", true, 1, "subnet"⟩,
       ⟨"D", 20, 60, 30, 30, some "B", false, 2, "ec2"⟩]) "B" = some 120 ∧
    getNodeY (resolve_container_collisions
      [⟨"P", 0, 0, 400, 400, none, true, 0, "vpc"⟩,
       ⟨"A", 10, 0, 100, 100, some "P", true, 1, "subnet"⟩,
       ⟨"B", 10, 50, 100, 100, some "P", true, 1, "subnet"⟩,
       ⟨"D", 20, 60, 30, 30, some "B", false, 2, "ec2"⟩]) "D" = some 60 ∧
    ¬ ((60 : ℤ) - 120 = 60 - 50) := by
  refine ⟨by decide, by decide, by decide⟩

/-- **C3 (counterexample).** The claim quantifies over every pair of distinct
same-parent nodes, but the collision pass moves only *containers*: two leaf
siblings with identical boxes under `P` (sibling count 2 < 50) are left
untouched, and the code's own `_check_node_overlaps` still reports the pair
after the pass. -/
theorem c3_counterexample_leaf_siblings_still_overlap :
    resolve_container_collisions
      [⟨"P", 0, 0, 300, 300, none, true, 0, "vpc"⟩,
       ⟨"L1", 10, 10, 50, 50, some "P", false, 1, "ec2"⟩,
       ⟨"L2", 10, 10, 50, 50, some "P", false, 1, "ec2"⟩] =
      [⟨"P", 0, 0, 300, 300, none, true, 0, "vpc"⟩,
       ⟨"L1", 10, 10, 50, 50, some "P", false, 1, "ec2"⟩,
       ⟨"L2", 10, 10, 50, 50, some "P", false, 1, "ec2"⟩] ∧
    check_node_overlaps (resolve_container_collisions
      [⟨"P", 0, 0, 300, 300, none, true, 0, "vpc"⟩,
       ⟨"L1", 10, 10, 50, 50, some "P", false, 1, "ec2"⟩,
       ⟨"L2", 10, 10, 50, 50, some "P", false, 1, "ec2"⟩]) = [("L1", "L2")] := by
  refine ⟨by decide, by decide⟩

/-- **C3 (amended).** Immediately after `_resolve_container_collisions`, any
two distinct sibling *containers* (same `parentId`, distinct ids; heights
nonnegative, node ids unique) have vertically disjoint box interiors: one
box's bottom is at or above the other box's top.  Leaf siblings are outside
the scope of the pass (see the counterexample), and touching boundaries can
remain (an adjacent pair with `bottom = top` is not pushed). -/
theorem c3_sibling_containers_vertically_separated (ns : List Node)
    (hids : (ns.map Node.id).Nodup)
    (hh : ∀ n ∈ ns, n.isContainer = true → 0 ≤ n.h) :
    ∀ a ∈ resolve_container_collisions ns, ∀ b ∈ resolve_container_collisions ns,
      a.isContainer = true → b.isContainer = true → a.id ≠ b.id →
      a.parentId = b.parentId → a.y + a.h ≤ b.y ∨ b.y + b.h ≤ a.y := by
  intro a ha b hb hac hbc hne hpp
  obtain ⟨na, hna, hfa⟩ := List.mem_map.mp ha
  obtain ⟨nb, hnb, hfb⟩ := List.mem_map.mp hb
  have hnac : na.isContainer = true := by
    by_contra hno
    have hno2 : na.isContainer = false := by
      cases hcc : na.isContainer
      · rfl
      · exact absurd hcc hno
    rw [← hfa] at hac
    simp [hno2] at hac
  have hnbc : nb.isContainer = true := by
    by_contra hno
    have hno2 : nb.isContainer = false := by
      cases hcc : nb.isContainer
      · rfl
      · exact absurd hcc hno
    rw [← hfb] at hbc
    simp [hno2] at hbc
  obtain ⟨ma, hfinda, hmar, hska⟩ := resolve_find_container ns hids na hna hnac
  obtain ⟨mb, hfindb, hmbr, hskb⟩ := resolve_find_container ns hids nb hnb hnbc
  have hae : a = setY na ma.y := by
    rw [← hfa]
    simp [hnac, hfinda]
  have hbe : b = setY nb mb.y := by
    rw [← hfb]
    simp [hnbc, hfindb]
  have hgroup : nb.parentId = na.parentId := by
    have h1 : a.parentId = na.parentId := by rw [hae]; rfl
    have h2 : b.parentId = nb.parentId := by rw [hbe]; rfl
    rw [h1, h2] at hpp
    exact hpp.symm
  rw [hgroup] at hmbr
  have hchain := resolveGroup_chain (sibContainers ns na.parentId)
  have hpos := resolveGroup_h_nonneg ns hh na.parentId
  have hpw : (resolveGroup (sibContainers ns na.parentId)).Pairwise vsep :=
    chain_vsep_pairwise _ hchain hpos
  have hpw2 : (resolveGroup (sibContainers ns na.parentId)).Pairwise
      (fun u v => vsep u v ∨ vsep v u) :=
    hpw.imp (fun hz => Or.inl hz)
  have hsym : Symmetric (fun u v : Node => vsep u v ∨ vsep v u) :=
    fun u v hz => hz.symm
  have hmane : ma ≠ mb := by
    intro heq
    apply hne
    have e1 : a.id = na.id := by rw [hae]; rfl
    have e2 : b.id = nb.id := by rw [hbe]; rfl
    have e3 : ma.id = na.id := skelC_eq_id hska
    have e4 : mb.id = nb.id := skelC_eq_id hskb
    rw [e1, e2, ← e3, ← e4, heq]
  have hor := hpw2.forall hsym hmar hmbr hmane
  have hay : a.y = ma.y := by rw [hae]; rfl
  have hah : a.h = ma.h := by
    rw [hae]
    rw [setY_h]
    exact (skelC_eq_h hska).symm
  have hby : b.y = mb.y := by rw [hbe]; rfl
  have hbh : b.h = mb.h := by
    rw [hbe]
    rw [setY_h]
    exact (skelC_eq_h hskb).symm
  cases hor with
  | inl hv =>
    left
    rw [hay, hah, hby]
    exact hv
  | inr hv =>
    right
    rw [hby, hbh, hay]
    exact hv

/-- Witness for the amended C3: the two sibling containers of the failing
C1 input end vertically separated after the pass. -/
theorem c3_sibling_containers_witness :
    (⟨"A", 10, 0, 100, 100, some "P", true, 1, "subnet"⟩ : Node) ∈
      resolve_container_collisions
        [⟨"P", 0, 0, 400, 400, none, true, 0, "vpc"⟩,
         ⟨"A", 10, 0, 100, 100, some "P", true, 1, "subnet"⟩,
         ⟨"B", 10, 50, 100, 100, some "P", true, 1, "subnet"⟩] ∧
    ((0 : ℤ) + 100 ≤ 120 ∨ (120 : ℤ) + 100 ≤ 0) :=
  ⟨by decide,
   c3_sibling_containers_vertically_separated
     [⟨"P", 0, 0, 400, 400, none, true, 0, "vpc"⟩,
      ⟨"A", 10, 0, 100, 100, some "P", true, 1, "subnet"⟩,
      ⟨"B", 10, 50, 100, 100, some "P", true, 1, "subnet"⟩]
     (by decide) (by decide)
     ⟨"A", 10, 0, 100, 100, some "P", true, 1, "subnet"⟩ (by decide)
     ⟨"B", 10, 120, 100, 100, some "P", true, 1, "subnet"⟩ (by decide)
     (by decide) (by decide) (by decide) (by decide)⟩

/-! ## Structural facts about the resize pass -/

/-- Everything of a node except its geometry (the fields the resize pass
writes). -/
def skelG (n : Node) : Node := { n with x := 0, y := 0, w := 0, h := 0 }

/-- The body of the `st.map` in `fitChildren`. -/
def fitUpd (cid : String) (mX mXx mY mYy : ℤ) (n : Node) : Node :=
  if n.id = cid then
    { n with x := mX - 30, y := mY - 30,
             w := (mXx - mX) + 2 * 30, h := (mYy - mY) + 2 * 30 }
  else n

theorem fitChildren_eq (st : List Node) (cid : String) :
    fitChildren st cid =
      (if (childrenOf st cid).isEmpty then st
       else st.map (fitUpd cid
          (minZ (fun n => n.x) 0 (childrenOf st cid))
          (maxZ (fun n => n.x + n.w) 0 (childrenOf st cid))
          (minZ (fun n => n.y) 0 (childrenOf st cid))
          (maxZ (fun n => n.y + n.h) 0 (childrenOf st cid)))) := by
  rfl

theorem fitUpd_id (cid : String) (a b c d : ℤ) (n : Node) :
    (fitUpd cid a b c d n).id = n.id := by
  unfold fitUpd
  by_cases h : n.id = cid
  · rw [if_pos h]
  · rw [if_neg h]

theorem fitUpd_skelG (cid : String) (a b c d : ℤ) (n : Node) :
    skelG (fitUpd cid a b c d n) = skelG n := by
  unfold fitUpd
  by_cases h : n.id = cid
  · rw [if_pos h]; rfl
  · rw [if_neg h]

theorem fitUpd_parentId (cid : String) (a b c d : ℤ) (n : Node) :
    (fitUpd cid a b c d n).parentId = n.parentId := by
  unfold fitUpd
  by_cases h : n.id = cid
  · rw [if_pos h]
  · rw [if_neg h]

theorem fitUpd_ne (cid : String) (a b c d : ℤ) (n : Node) (h : ¬ n.id = cid) :
    fitUpd cid a b c d n = n := by
  unfold fitUpd
  rw [if_neg h]

theorem fitChildren_map_skelG (st : List Node) (cid : String) :
    (fitChildren st cid).map skelG = st.map skelG := by
  rw [fitChildren_eq]
  by_cases he : (childrenOf st cid).isEmpty
  · rw [if_pos he]
  · rw [if_neg he]
    rw [List.map_map]
    exact List.map_congr_left (fun n _ => fitUpd_skelG cid _ _ _ _ n)

theorem foldl_fitChildren_map_skelG :
    ∀ (l : List String) (st : List Node),
      (l.foldl fitChildren st).map skelG = st.map skelG := by
  intro l
  induction l with
  | nil => intro st; rfl
  | cons c t ih =>
    intro st
    simp only [List.foldl_cons]
    rw [ih (fitChildren st c), fitChildren_map_skelG]

/-- `nodeById` through a map whose function preserves ids. -/
theorem nodeById_map {g : Node → Node} (hid : ∀ n, (g n).id = n.id) :
    ∀ (st : List Node) (i : String),
      nodeById (st.map g) i = (nodeById st i).map g := by
  intro st
  induction st with
  | nil => intro i; rfl
  | cons a t ih =>
    intro i
    simp only [List.map_cons, nodeById, List.find?]
    by_cases h : a.id = i
    · have h1 : decide ((g a).id = i) = true := decide_eq_true (by rw [hid a]; exact h)
      have h2 : decide (a.id = i) = true := decide_eq_true h
      rw [h1, h2]
      rfl
    · have h1 : decide ((g a).id = i) = false := decide_eq_false (by rw [hid a]; exact h)
      have h2 : decide (a.id = i) = false := decide_eq_false h
      rw [h1, h2]
      exact ih i

theorem nodeById_eq_some_id {st : List Node} {i : String} {n : Node}
    (h : nodeById st i = some n) : n.id = i := by
  have := List.find?_some h
  simpa using this

theorem nodeById_mem {st : List Node} {i : String} {n : Node}
    (h : nodeById st i = some n) : n ∈ st :=
  List.mem_of_find?_eq_some h

/-- A resize step leaves every other id's node untouched. -/
theorem nodeById_fitChildren_ne (st : List Node) (cid i : String) (hne : i ≠ cid) :
    nodeById (fitChildren st cid) i = nodeById st i := by
  rw [fitChildren_eq]
  by_cases he : (childrenOf st cid).isEmpty
  · rw [if_pos he]
  · rw [if_neg he]
    rw [nodeById_map (fun n => fitUpd_id cid _ _ _ _ n)]
    cases hn : nodeById st i with
    | none => rfl
    | some n =>
      have : n.id = i := nodeById_eq_some_id hn
      simp only [Option.map_some']
      rw [fitUpd_ne cid _ _ _ _ n (by rw [this]; exact hne)]

/-- `childrenOf` through a map whose function preserves `parentId` and
which fixes every child of `c`. -/
theorem childrenOf_map {g : Node → Node} (hpar : ∀ n, (g n).parentId = n.parentId)
    (st : List Node) (c : String) :
    childrenOf (st.map g) c = (childrenOf st c).map g := by
  unfold childrenOf
  rw [List.filter_map]
  congr 1
  exact List.filter_congr (fun n _ => by
    show decide ((g n).parentId = some c) = decide (n.parentId = some c)
    rw [hpar n])

theorem childrenOf_fitChildren (st : List Node) (cid c : String)
    (hfix : ∀ m ∈ childrenOf st c, m.id ≠ cid) :
    childrenOf (fitChildren st cid) c = childrenOf st c := by
  rw [fitChildren_eq]
  by_cases he : (childrenOf st cid).isEmpty
  · rw [if_pos he]
  · rw [if_neg he]
    rw [childrenOf_map (fun n => fitUpd_parentId cid _ _ _ _ n)]
    have : ∀ m ∈ childrenOf st c, fitUpd cid
        (minZ (fun n => n.x) 0 (childrenOf st cid))
        (maxZ (fun n => n.x + n.w) 0 (childrenOf st cid))
        (minZ (fun n => n.y) 0 (childrenOf st cid))
        (maxZ (fun n => n.y + n.h) 0 (childrenOf st cid)) m = m := by
      intro m hm
      exact fitUpd_ne cid _ _ _ _ m (hfix m hm)
    rw [List.map_congr_left this]
    simp

theorem skelG_eq_id {m n : Node} (h : skelG m = skelG n) : m.id = n.id := by
  have := congrArg Node.id h
  simpa [skelG] using this

theorem skelG_eq_parentId {m n : Node} (h : skelG m = skelG n) :
    m.parentId = n.parentId := by
  have := congrArg Node.parentId h
  simpa [skelG] using this

theorem skelG_eq_isContainer {m n : Node} (h : skelG m = skelG n) :
    m.isContainer = n.isContainer := by
  have := congrArg Node.isContainer h
  simpa [skelG] using this

theorem skelG_eq_nestingDepth {m n : Node} (h : skelG m = skelG n) :
    m.nestingDepth = n.nestingDepth := by
  have := congrArg Node.nestingDepth h
  simpa [skelG] using this

/-- No node of `st` that is a child of container id `cid` has id `c'`
(a geometry-independent property of the collection). -/
def childAvoid (st : List Node) (cid c' : String) : Prop :=
  ∀ m ∈ st, m.parentId = some cid → m.id ≠ c'

theorem childAvoid_children {st : List Node} {cid c' : String}
    (h : childAvoid st cid c') : ∀ m ∈ childrenOf st cid, m.id ≠ c' := by
  intro m hm
  obtain ⟨hmem, hpred⟩ := List.mem_filter.mp hm
  exact h m hmem (by simpa using hpred)

theorem childAvoid_of_map_skelG_eq {st st2 : List Node}
    (h : st.map skelG = st2.map skelG) {cid c' : String}
    (hca : childAvoid st cid c') : childAvoid st2 cid c' := by
  intro m hm hpar
  have : skelG m ∈ st.map skelG := by
    rw [h]
    exact List.mem_map_of_mem skelG hm
  obtain ⟨u, hu, husk⟩ := List.mem_map.mp this
  have hpar2 : u.parentId = some cid := by
    rw [skelG_eq_parentId husk]
    exact hpar
  have := hca u hu hpar2
  rw [← skelG_eq_id husk]
  exact this

/-- The container with id `cid` is sized exactly to its children with
padding 30 (the fixpoint equations of one resize step). -/
def FittedAt (st : List Node) (cid : String) : Prop :=
  ∀ C, nodeById st cid = some C → ¬ (childrenOf st cid).isEmpty = true →
    C.x = minZ (fun n => n.x) 0 (childrenOf st cid) - 30 ∧
    C.y = minZ (fun n => n.y) 0 (childrenOf st cid) - 30 ∧
    C.w = (maxZ (fun n => n.x + n.w) 0 (childrenOf st cid) -
           minZ (fun n => n.x) 0 (childrenOf st cid)) + 2 * 30 ∧
    C.h = (maxZ (fun n => n.y + n.h) 0 (childrenOf st cid) -
           minZ (fun n => n.y) 0 (childrenOf st cid)) + 2 * 30

theorem fitChildren_establishes (st : List Node) (cid : String)
    (hself : childAvoid st cid cid) : FittedAt (fitChildren st cid) cid := by
  intro C hC hnonempty
  have hch : childrenOf (fitChildren st cid) cid = childrenOf st cid :=
    childrenOf_fitChildren st cid cid (childAvoid_children hself)
  rw [hch] at hnonempty ⊢
  by_cases he : (childrenOf st cid).isEmpty
  · exact absurd he hnonempty
  · rw [fitChildren_eq, if_neg he] at hC
    rw [nodeById_map (fun n => fitUpd_id cid _ _ _ _ n)] at hC
    cases hn : nodeById st cid with
    | none => rw [hn] at hC; simp at hC
    | some n0 =>
      rw [hn] at hC
      simp only [Option.map_some', Option.some.injEq] at hC
      have hid : n0.id = cid := nodeById_eq_some_id hn
      rw [← hC]
      unfold fitUpd
      rw [if_pos hid]
      exact ⟨rfl, rfl, rfl, rfl⟩

theorem fitChildren_preserves (st : List Node) (cid c' : String)
    (hfit : FittedAt st cid) (hne : c' ≠ cid)
    (hca : childAvoid st cid c') : FittedAt (fitChildren st c') cid := by
  intro C hC hnonempty
  have hch : childrenOf (fitChildren st c') cid = childrenOf st cid :=
    childrenOf_fitChildren st c' cid (childAvoid_children hca)
  rw [hch] at hnonempty ⊢
  rw [nodeById_fitChildren_ne st c' cid (Ne.symm hne)] at hC
  exact hfit C hC hnonempty

theorem foldl_fitChildren_preserves :
    ∀ (l : List String) (st : List Node) (cid : String),
      FittedAt st cid → cid ∉ l →
      (∀ c' ∈ l, childAvoid st cid c') →
      FittedAt (l.foldl fitChildren st) cid := by
  intro l
  induction l with
  | nil => intro st cid hfit _ _; exact hfit
  | cons c t ih =>
    intro st cid hfit hnotmem hca
    simp only [List.foldl_cons]
    have hcne : c ≠ cid := by
      intro heq
      exact hnotmem (heq ▸ List.mem_cons_self c t)
    have hfit2 : FittedAt (fitChildren st c) cid :=
      fitChildren_preserves st cid c hfit hcne (hca c (List.mem_cons_self c t))
    have hskel : (fitChildren st c).map skelG = st.map skelG :=
      fitChildren_map_skelG st c
    refine ih (fitChildren st c) cid hfit2 (fun hm => hnotmem (List.mem_cons_of_mem c hm)) ?_
    intro c' hc'
    exact childAvoid_of_map_skelG_eq hskel.symm
      (hca c' (List.mem_cons_of_mem c hc'))

theorem foldl_fitChildren_all_fitted :
    ∀ (l : List String) (st : List Node),
      l.Nodup →
      (∀ c ∈ l, childAvoid st c c) →
      l.Pairwise (fun a b => childAvoid st a b) →
      ∀ cid ∈ l, FittedAt (l.foldl fitChildren st) cid := by
  intro l
  induction l with
  | nil => intro st _ _ _ cid hcid; cases hcid
  | cons c t ih =>
    intro st hnodup hself hpw cid hcid
    simp only [List.foldl_cons]
    have hskel : (fitChildren st c).map skelG = st.map skelG :=
      fitChildren_map_skelG st c
    rcases List.mem_cons.mp hcid with rfl | hcidt
    · have hfit : FittedAt (fitChildren st cid) cid :=
        fitChildren_establishes st cid (hself cid (List.mem_cons_self cid t))
      refine foldl_fitChildren_preserves t (fitChildren st cid) cid hfit
        ((List.nodup_cons.mp hnodup).1) ?_
      intro c' hc'
      exact childAvoid_of_map_skelG_eq hskel.symm
        ((List.pairwise_cons.mp hpw).1 c' hc')
    · refine ih (fitChildren st c) ((List.nodup_cons.mp hnodup).2) ?_ ?_ cid hcidt
      · intro c2 hc2
        exact childAvoid_of_map_skelG_eq hskel.symm
          (hself c2 (List.mem_cons_of_mem c hc2))
      · refine (List.pairwise_cons.mp hpw).2.imp_of_mem ?_
        intro a b _ _ hab
        exact childAvoid_of_map_skelG_eq hskel.symm hab

theorem init_le_foldl_max (f : Node → ℤ) :
    ∀ (l : List Node) (b : ℤ), b ≤ l.foldl (fun m n => max m (f n)) b := by
  intro l
  induction l with
  | nil => intro b; exact le_rfl
  | cons c t ih =>
    intro b
    simp only [List.foldl_cons]
    exact le_trans (le_max_left b (f c)) (ih (max b (f c)))

theorem mem_le_foldl_max (f : Node → ℤ) :
    ∀ (l : List Node) (b : ℤ) (a : Node), a ∈ l →
      f a ≤ l.foldl (fun m n => max m (f n)) b := by
  intro l
  induction l with
  | nil => intro b a ha; cases ha
  | cons c t ih =>
    intro b a ha
    simp only [List.foldl_cons]
    rcases List.mem_cons.mp ha with rfl | hat
    · exact le_trans (le_max_right b (f a)) (init_le_foldl_max f t (max b (f a)))
    · exact ih (max b (f c)) a hat

theorem le_maxZ (f : Node → ℤ) (d : ℤ) :
    ∀ (l : List Node) (a : Node), a ∈ l → f a ≤ maxZ f d l := by
  intro l a ha
  cases l with
  | nil => cases ha
  | cons c t =>
    show f a ≤ t.foldl (fun m n => max m (f n)) (f c)
    rcases List.mem_cons.mp ha with rfl | hat
    · exact init_le_foldl_max f t (f a)
    · exact mem_le_foldl_max f t (f c) a hat

theorem foldl_min_le_init (f : Node → ℤ) :
    ∀ (l : List Node) (b : ℤ), l.foldl (fun m n => min m (f n)) b ≤ b := by
  intro l
  induction l with
  | nil => intro b; exact le_rfl
  | cons c t ih =>
    intro b
    simp only [List.foldl_cons]
    exact le_trans (ih (min b (f c))) (min_le_left b (f c))

theorem foldl_min_le_mem (f : Node → ℤ) :
    ∀ (l : List Node) (b : ℤ) (a : Node), a ∈ l →
      l.foldl (fun m n => min m (f n)) b ≤ f a := by
  intro l
  induction l with
  | nil => intro b a ha; cases ha
  | cons c t ih =>
    intro b a ha
    simp only [List.foldl_cons]
    rcases List.mem_cons.mp ha with rfl | hat
    · exact le_trans (foldl_min_le_init f t (min b (f a))) (min_le_right b (f a))
    · exact ih (min b (f c)) a hat

theorem minZ_le (f : Node → ℤ) (d : ℤ) :
    ∀ (l : List Node) (a : Node), a ∈ l → minZ f d l ≤ f a := by
  intro l a ha
  cases l with
  | nil => cases ha
  | cons c t =>
    show t.foldl (fun m n => min m (f n)) (f c) ≤ f a
    rcases List.mem_cons.mp ha with rfl | hat
    · exact foldl_min_le_init f t (f a)
    · exact foldl_min_le_mem f t (f c) a hat

/-- With unique ids, the id lookup of a member returns that member. -/
theorem nodeById_of_mem_nodup {st : List Node} (hids : (st.map Node.id).Nodup)
    {C : Node} (hC : C ∈ st) : nodeById st C.id = some C := by
  have hfind : (nodeById st C.id).isSome :=
    List.find?_isSome.mpr ⟨C, hC, by simp⟩
  obtain ⟨m, hm⟩ := Option.isSome_iff_exists.mp hfind
  have hmmem : m ∈ st := nodeById_mem hm
  have hmid : m.id = C.id := nodeById_eq_some_id hm
  rw [hm, List.inj_on_of_nodup_map hids hmmem hC hmid]

theorem map_id_eq_map_skelG_map_id (st : List Node) :
    st.map Node.id = (st.map skelG).map Node.id := by
  rw [List.map_map]
  exact (List.map_congr_left (fun a _ => rfl))

theorem depthGe_total (a b : Node) : depthGe a b || depthGe b a := by
  unfold depthGe
  rcases Nat.le_total b.nestingDepth a.nestingDepth with h | h
  · simp [h]
  · simp [h]

theorem depthGe_trans (a b c : Node) (hab : depthGe a b = true)
    (hbc : depthGe b c = true) : depthGe a c = true := by
  unfold depthGe at hab hbc ⊢
  simp only [decide_eq_true_eq] at hab hbc ⊢
  omega

/-- After `_resize_containers_to_fit_children`, every processed container is
sized exactly to its children (given well-formed unique ids and
strictly increasing nesting depth along containment). -/
theorem resize_fitted (ns : List Node)
    (hids : (ns.map Node.id).Nodup)
    (hdepth : ∀ p ∈ ns, ∀ c ∈ ns, c.parentId = some p.id →
      p.nestingDepth < c.nestingDepth) :
    ∀ cid ∈ (containersByDepthDesc ns).map Node.id,
      FittedAt (resize_containers_to_fit_children ns) cid := by
  have hLperm : (containersByDepthDesc ns).Perm (ns.filter (fun n => n.isContainer)) :=
    sSort_perm depthGe _
  have hmemns : ∀ A ∈ containersByDepthDesc ns, A ∈ ns := by
    intro A hA
    exact (List.mem_filter.mp (hLperm.subset hA)).1
  have hlnodup : (((containersByDepthDesc ns).map Node.id)).Nodup := by
    refine ((hLperm.map Node.id).nodup_iff).mpr ?_
    exact hids.sublist ((List.filter_sublist ns).map Node.id)
  have hself : ∀ c ∈ (containersByDepthDesc ns).map Node.id, childAvoid ns c c := by
    intro c _ m hm hpar heq
    have hpar2 : m.parentId = some m.id := by rw [heq]; exact hpar
    exact absurd (hdepth m hm m hm hpar2) (lt_irrefl _)
  have hsorted : (containersByDepthDesc ns).Pairwise (fun a b => depthGe a b = true) :=
    sSort_pairwise depthGe_total depthGe_trans _
  have hpwL : (containersByDepthDesc ns).Pairwise
      (fun A B => childAvoid ns A.id B.id) := by
    refine hsorted.imp_of_mem ?_
    intro A B hA hB hAB m hm hpar heq
    have hAns : A ∈ ns := hmemns A hA
    have hBns : B ∈ ns := hmemns B hB
    have h1 : A.nestingDepth < m.nestingDepth := hdepth A hAns m hm hpar
    have h2 : m = B := List.inj_on_of_nodup_map hids hm hBns heq
    have h3 : B.nestingDepth ≤ A.nestingDepth := by
      have := hAB
      unfold depthGe at this
      simpa using this
    rw [h2] at h1
    omega
  have hpw : ((containersByDepthDesc ns).map Node.id).Pairwise
      (fun a b => childAvoid ns a b) := List.pairwise_map.mpr hpwL
  exact foldl_fitChildren_all_fitted _ ns hlnodup hself hpw

/-- **C4.** After `_resize_containers_to_fit_children`, every container
with at least one child covers its children horizontally and vertically:
`max(child.x + child.w) − C.x ≤ C.w` and `max(child.y + child.h) − C.y ≤
C.h` (the pass sets `C.x = min − 30` and `C.w = (max − min) + 60`, leaving
slack exactly the padding).  Hypotheses: node ids are unique and nesting
depth strictly increases from parent to child (the data-model invariant of
the containment forest). -/
theorem c4_containers_enclose_children (ns : List Node)
    (hids : (ns.map Node.id).Nodup)
    (hdepth : ∀ p ∈ ns, ∀ c ∈ ns, c.parentId = some p.id →
      p.nestingDepth < c.nestingDepth) :
    ∀ C ∈ resize_containers_to_fit_children ns, C.isContainer = true →
      ¬ (childrenOf (resize_containers_to_fit_children ns) C.id).isEmpty = true →
      maxZ (fun c => c.x + c.w) 0
          (childrenOf (resize_containers_to_fit_children ns) C.id) - C.x ≤ C.w ∧
      maxZ (fun c => c.y + c.h) 0
          (childrenOf (resize_containers_to_fit_children ns) C.id) - C.y ≤ C.h := by
  intro C hC hcont hne
  have hmaps : (resize_containers_to_fit_children ns).map skelG = ns.map skelG :=
    foldl_fitChildren_map_skelG _ ns
  have hRids : ((resize_containers_to_fit_children ns).map Node.id).Nodup := by
    rw [map_id_eq_map_skelG_map_id, hmaps, ← map_id_eq_map_skelG_map_id]
    exact hids
  have hskmem : skelG C ∈ ns.map skelG := by
    rw [← hmaps]
    exact List.mem_map_of_mem skelG hC
  obtain ⟨n0, hn0, hsk⟩ := List.mem_map.mp hskmem
  have hn0c : n0.isContainer = true := by
    rw [skelG_eq_isContainer hsk]
    exact hcont
  have hn0L : n0 ∈ containersByDepthDesc ns :=
    (sSort_perm depthGe _).mem_iff.mpr (List.mem_filter.mpr ⟨hn0, by simp [hn0c]⟩)
  have hidl : C.id ∈ (containersByDepthDesc ns).map Node.id := by
    rw [← skelG_eq_id hsk]
    exact List.mem_map_of_mem Node.id hn0L
  have hfit := resize_fitted ns hids hdepth C.id hidl
  have hCbyid : nodeById (resize_containers_to_fit_children ns) C.id = some C :=
    nodeById_of_mem_nodup hRids hC
  obtain ⟨hx, hy, hw, hh⟩ := hfit C hCbyid hne
  constructor
  · omega
  · omega

/-- Witness for C4: the container `P` of a one-child collection, after the
pass, covers its child's right and bottom extents. -/
theorem c4_containers_enclose_children_witness :
    maxZ (fun c => c.x + c.w) 0
        (childrenOf (resize_containers_to_fit_children
          [⟨"P", 0, 0, 300, 300, none, true, 0, "vpc"⟩,
           ⟨"L", 100, 50, 40, 20, some "P", false, 1, "ec2"⟩]) "P") -
        (⟨"P", 70, 20, 100, 80, none, true, 0, "vpc"⟩ : Node).x ≤
      (⟨"P", 70, 20, 100, 80, none, true, 0, "vpc"⟩ : Node).w ∧
    maxZ (fun c => c.y + c.h) 0
        (childrenOf (resize_containers_to_fit_children
          [⟨"P", 0, 0, 300, 300, none, true, 0, "vpc"⟩,
           ⟨"L", 100, 50, 40, 20, some "P", false, 1, "ec2"⟩]) "P") -
        (⟨"P", 70, 20, 100, 80, none, true, 0, "vpc"⟩ : Node).y ≤
      (⟨"P", 70, 20, 100, 80, none, true, 0, "vpc"⟩ : Node).h :=
  c4_containers_enclose_children
    [⟨"P", 0, 0, 300, 300, none, true, 0, "vpc"⟩,
     ⟨"L", 100, 50, 40, 20, some "P", false, 1, "ec2"⟩]
    (by decide) (by decide)
    ⟨"P", 70, 20, 100, 80, none, true, 0, "vpc"⟩ (by decide) (by decide) (by decide)

theorem forall₂_of_map_eq {f : Node → Node} :
    ∀ {st st2 : List Node}, st.map f = st2.map f →
      List.Forall₂ (fun a b => f a = f b) st st2 := by
  intro st
  induction st with
  | nil =>
    intro st2 h
    cases st2 with
    | nil => exact List.Forall₂.nil
    | cons b t2 => simp at h
  | cons a t ih =>
    intro st2 h
    cases st2 with
    | nil => simp at h
    | cons b t2 =>
      simp only [List.map_cons, List.cons.injEq] at h
      exact List.Forall₂.cons h.1 (ih h.2)

theorem forall₂_filter {R : Node → Node → Prop} {p : Node → Bool}
    (hp : ∀ a b, R a b → p a = p b) :
    ∀ {l l2 : List Node}, List.Forall₂ R l l2 →
      List.Forall₂ R (l.filter p) (l2.filter p) := by
  intro l l2 h
  induction h with
  | nil => exact List.Forall₂.nil
  | @cons a b t t2 hab ht ih =>
    simp only [List.filter_cons]
    by_cases hpa : p a = true
    · rw [if_pos hpa, if_pos (by rw [← hp a b hab]; exact hpa)]
      exact List.Forall₂.cons hab ih
    · rw [if_neg hpa, if_neg (by rw [← hp a b hab]; exact hpa)]
      exact ih

theorem forall₂_map_id {R : Node → Node → Prop}
    (hid : ∀ a b, R a b → a.id = b.id) :
    ∀ {l l2 : List Node}, List.Forall₂ R l l2 →
      l.map Node.id = l2.map Node.id := by
  intro l l2 h
  induction h with
  | nil => rfl
  | @cons a b t t2 hab ht ih =>
    simp only [List.map_cons]
    rw [hid a b hab, ih]

theorem node_set_eq_self {n : Node} {a b c d : ℤ}
    (ha : n.x = a) (hb : n.y = b) (hc : n.w = c) (hd : n.h = d) :
    ({ n with x := a, y := b, w := c, h := d } : Node) = n := by
  cases n
  subst ha
  subst hb
  subst hc
  subst hd
  rfl

/-- A resize step is the identity on a state where the container already
satisfies the fixpoint equations. -/
theorem fitChildren_fixpoint (st : List Node) (cid : String)
    (hids : (st.map Node.id).Nodup) (hfit : FittedAt st cid) :
    fitChildren st cid = st := by
  rw [fitChildren_eq]
  by_cases he : (childrenOf st cid).isEmpty
  · rw [if_pos he]
  · rw [if_neg he]
    have hfix : ∀ n ∈ st, fitUpd cid
        (minZ (fun n => n.x) 0 (childrenOf st cid))
        (maxZ (fun n => n.x + n.w) 0 (childrenOf st cid))
        (minZ (fun n => n.y) 0 (childrenOf st cid))
        (maxZ (fun n => n.y + n.h) 0 (childrenOf st cid)) n = n := by
      intro n hn
      by_cases hnid : n.id = cid
      · have hby : nodeById st cid = some n := by
          rw [← hnid]
          exact nodeById_of_mem_nodup hids hn
        obtain ⟨hx, hy, hw, hh⟩ := hfit n hby he
        unfold fitUpd
        rw [if_pos hnid]
        exact node_set_eq_self hx hy hw hh
      · exact fitUpd_ne cid _ _ _ _ n hnid
    rw [List.map_congr_left hfix]
    simp

theorem foldl_fitChildren_fixpoint :
    ∀ (l : List String) (st : List Node), (st.map Node.id).Nodup →
      (∀ c ∈ l, FittedAt st c) → l.foldl fitChildren st = st := by
  intro l
  induction l with
  | nil => intro st _ _; rfl
  | cons c t ih =>
    intro st hids hfit
    simp only [List.foldl_cons]
    rw [fitChildren_fixpoint st c hids (hfit c (List.mem_cons_self c t))]
    exact ih st hids (fun c2 hc2 => hfit c2 (List.mem_cons_of_mem c hc2))

/-- **C5.** Container sizing is idempotent: running
`_resize_containers_to_fit_children` a second time on the collection
produced by a first run changes no node (same hypotheses as C4: unique ids
and parent-to-child strictly increasing nesting depth). -/
theorem c5_resize_idempotent (ns : List Node)
    (hids : (ns.map Node.id).Nodup)
    (hdepth : ∀ p ∈ ns, ∀ c ∈ ns, c.parentId = some p.id →
      p.nestingDepth < c.nestingDepth) :
    resize_containers_to_fit_children (resize_containers_to_fit_children ns) =
      resize_containers_to_fit_children ns := by
  have hmaps : (resize_containers_to_fit_children ns).map skelG = ns.map skelG :=
    foldl_fitChildren_map_skelG _ ns
  have hRids : ((resize_containers_to_fit_children ns).map Node.id).Nodup := by
    rw [map_id_eq_map_skelG_map_id, hmaps, ← map_id_eq_map_skelG_map_id]
    exact hids
  have hF2 : List.Forall₂ (fun a b => skelG a = skelG b)
      (resize_containers_to_fit_children ns) ns := forall₂_of_map_eq hmaps
  have hF2f : List.Forall₂ (fun a b => skelG a = skelG b)
      ((resize_containers_to_fit_children ns).filter (fun n => n.isContainer))
      (ns.filter (fun n => n.isContainer)) :=
    forall₂_filter (fun a b hab => skelG_eq_isContainer hab) hF2
  have hF2s : List.Forall₂ (fun a b => skelG a = skelG b)
      (containersByDepthDesc (resize_containers_to_fit_children ns))
      (containersByDepthDesc ns) := by
    refine sSort_congr ?_ hF2f
    intro a a2 b b2 ha hb
    unfold depthGe
    rw [skelG_eq_nestingDepth ha, skelG_eq_nestingDepth hb]
  have hidlist : (containersByDepthDesc (resize_containers_to_fit_children ns)).map Node.id =
      (containersByDepthDesc ns).map Node.id :=
    forall₂_map_id (fun a b hab => skelG_eq_id hab) hF2s
  show ((containersByDepthDesc (resize_containers_to_fit_children ns)).map
      (fun n => n.id)).foldl fitChildren (resize_containers_to_fit_children ns) =
      resize_containers_to_fit_children ns
  have hfix : ∀ c ∈ (containersByDepthDesc ns).map Node.id,
      FittedAt (resize_containers_to_fit_children ns) c :=
    resize_fitted ns hids hdepth
  calc ((containersByDepthDesc (resize_containers_to_fit_children ns)).map
          (fun n => n.id)).foldl fitChildren (resize_containers_to_fit_children ns)
      = ((containersByDepthDesc ns).map Node.id).foldl fitChildren
          (resize_containers_to_fit_children ns) := by rw [hidlist]
    _ = resize_containers_to_fit_children ns :=
        foldl_fitChildren_fixpoint _ _ hRids hfix

/-- Witness for C5: idempotence evaluated on a concrete two-node tree. -/
theorem c5_resize_idempotent_witness :
    resize_containers_to_fit_children (resize_containers_to_fit_children
      [⟨"P", 0, 0, 300, 300, none, true, 0, "vpc"⟩,
       ⟨"L", 100, 50, 40, 20, some "P", false, 1, "ec2"⟩]) =
      resize_containers_to_fit_children
      [⟨"P", 0, 0, 300, 300, none, true, 0, "vpc"⟩,
       ⟨"L", 100, 50, 40, 20, some "P", false, 1, "ec2"⟩] :=
  c5_resize_idempotent
    [⟨"P", 0, 0, 300, 300, none, true, 0, "vpc"⟩,
     ⟨"L", 100, 50, 40, 20, some "P", false, 1, "ec2"⟩]
    (by decide) (by decide)

/-! ## Structural facts about `_assign_layers` -/

/-- One step of the `_assign_layers` fold. -/
def assignStep (pm : List (String × String)) (acc : List (String × Nat)) (n : Node) :
    List (String × Nat) :=
  match RESOURCE_LAYERS n.resourceType with
  | some L => (n.id, L) :: acc
  | none =>
    match lookupA pm n.id with
    | some pid => (n.id, ((lookupA acc pid).getD 1) + 1) :: acc
    | none => (n.id, 0) :: acc

theorem assign_layers_eq (ns : List Node) (pm : List (String × String)) :
    assign_layers ns pm = ns.foldl (assignStep pm) [] := rfl

/-- One step of the `parent_map` fold. -/
def pmStep (acc : List (String × String)) (n : Node) : List (String × String) :=
  match truthyParent n with
  | some p => (n.id, p) :: acc
  | none => acc

theorem parentMapOf_eq (ns : List Node) : parentMapOf ns = ns.foldl pmStep [] := rfl

theorem assignStep_shape (pm : List (String × String)) (acc : List (String × Nat))
    (n : Node) : ∃ v, assignStep pm acc n = (n.id, v) :: acc := by
  unfold assignStep
  cases RESOURCE_LAYERS n.resourceType with
  | some L => exact ⟨L, rfl⟩
  | none =>
    cases lookupA pm n.id with
    | some pid => exact ⟨_, rfl⟩
    | none => exact ⟨0, rfl⟩

theorem lookupA_cons_ne {β : Type} (k : String) (v : β) (acc : List (String × β))
    (i : String) (h : k ≠ i) : lookupA ((k, v) :: acc) i = lookupA acc i := by
  show (if k = i then some v else lookupA acc i) = lookupA acc i
  rw [if_neg h]

theorem lookupA_cons_self {β : Type} (k : String) (v : β) (acc : List (String × β)) :
    lookupA ((k, v) :: acc) k = some v := by
  show (if k = k then some v else lookupA acc k) = some v
  rw [if_pos rfl]

theorem lookupA_foldl_assign_not_mem (pm : List (String × String)) :
    ∀ (l : List Node) (acc : List (String × Nat)) (i : String),
      i ∉ l.map Node.id →
      lookupA (l.foldl (assignStep pm) acc) i = lookupA acc i := by
  intro l
  induction l with
  | nil => intro acc i _; rfl
  | cons n t ih =>
    intro acc i hi
    rw [List.map_cons] at hi
    have h1 : i ≠ n.id := fun heq => hi (heq ▸ List.mem_cons_self _ _)
    have h2 : i ∉ t.map Node.id := fun hm => hi (List.mem_cons_of_mem _ hm)
    simp only [List.foldl_cons]
    rw [ih (assignStep pm acc n) i h2]
    obtain ⟨v, hv⟩ := assignStep_shape pm acc n
    rw [hv, lookupA_cons_ne n.id v acc i (fun heq => h1 heq.symm)]

theorem lookupA_foldl_pm_not_mem :
    ∀ (l : List Node) (acc : List (String × String)) (i : String),
      i ∉ l.map Node.id →
      lookupA (l.foldl pmStep acc) i = lookupA acc i := by
  intro l
  induction l with
  | nil => intro acc i _; rfl
  | cons n t ih =>
    intro acc i hi
    rw [List.map_cons] at hi
    have h1 : i ≠ n.id := fun heq => hi (heq ▸ List.mem_cons_self _ _)
    have h2 : i ∉ t.map Node.id := fun hm => hi (List.mem_cons_of_mem _ hm)
    simp only [List.foldl_cons]
    rw [ih (pmStep acc n) i h2]
    unfold pmStep
    cases truthyParent n with
    | some p => rw [lookupA_cons_ne n.id p acc i (fun heq => h1 heq.symm)]
    | none => rfl

theorem lookupA_foldl_assign_isSome (pm : List (String × String)) :
    ∀ (l : List Node) (acc : List (String × Nat)) (i : String),
      (lookupA acc i).isSome = true ∨ i ∈ l.map Node.id →
      (lookupA (l.foldl (assignStep pm) acc) i).isSome = true := by
  intro l
  induction l with
  | nil =>
    intro acc i hi
    rcases hi with h | h
    · exact h
    · cases h
  | cons n t ih =>
    intro acc i hi
    simp only [List.foldl_cons]
    obtain ⟨v, hv⟩ := assignStep_shape pm acc n
    refine ih (assignStep pm acc n) i ?_
    rcases hi with h | h
    · left
      rw [hv]
      by_cases heq : n.id = i
      · rw [heq, lookupA_cons_self]; rfl
      · rw [lookupA_cons_ne n.id v acc i heq]; exact h
    · rw [List.map_cons] at h
      rcases List.mem_cons.mp h with rfl | hmem
      · left
        rw [hv, lookupA_cons_self]
        rfl
      · right
        exact hmem

/-- With unique ids, the `parent_map` lookup of a node's id is its own
truthy parent reference. -/
theorem lookupA_parentMapOf (ns : List Node) (hids : (ns.map Node.id).Nodup)
    (pre post : List Node) (c : Node) (hsplit : ns = pre ++ c :: post) :
    lookupA (parentMapOf ns) c.id = truthyParent c := by
  have hnot : c.id ∉ post.map Node.id := by
    rw [hsplit] at hids
    simp only [List.map_append, List.map_cons] at hids
    have := (List.nodup_append.mp hids).2.1
    exact (List.nodup_cons.mp this).1
  have hnotpre : c.id ∉ pre.map Node.id := by
    rw [hsplit] at hids
    simp only [List.map_append, List.map_cons] at hids
    intro hmem
    exact (List.nodup_append.mp hids).2.2 hmem (List.mem_cons_self _ _)
  rw [parentMapOf_eq, hsplit, List.foldl_append]
  simp only [List.foldl_cons]
  rw [lookupA_foldl_pm_not_mem post _ c.id hnot]
  cases htp : truthyParent c with
  | some p =>
    have : pmStep (pre.foldl pmStep []) c = (c.id, p) :: pre.foldl pmStep [] := by
      unfold pmStep
      rw [htp]
    rw [this, lookupA_cons_self]
  | none =>
    have : pmStep (pre.foldl pmStep []) c = pre.foldl pmStep [] := by
      unfold pmStep
      rw [htp]
    rw [this, lookupA_foldl_pm_not_mem pre [] c.id hnotpre]
    rfl

/-- Core inheritance fact: an unmapped-category node whose parent occurs
earlier in the node list is assigned its parent's (already final) layer
plus one. -/
theorem assign_layers_inherits (ns : List Node) (hids : (ns.map Node.id).Nodup)
    (pre post : List Node) (c : Node) (hsplit : ns = pre ++ c :: post)
    (hunmapped : RESOURCE_LAYERS c.resourceType = none)
    (p : Node) (hp : p ∈ pre) (hpar : truthyParent c = some p.id) :
    ∃ Lp, lookupA (assign_layers ns (parentMapOf ns)) p.id = some Lp ∧
      lookupA (assign_layers ns (parentMapOf ns)) c.id = some (Lp + 1) := by
  have hidsr : ((pre.map Node.id) ++ c.id :: post.map Node.id).Nodup := by
    rw [hsplit] at hids
    rw [List.map_append, List.map_cons] at hids
    exact hids
  have hd := List.nodup_append.mp hidsr
  have hpostc : c.id ∉ post.map Node.id := (List.nodup_cons.mp hd.2.1).1
  have hpidpre : p.id ∈ pre.map Node.id := List.mem_map_of_mem Node.id hp
  have hpnotin : p.id ∉ c.id :: post.map Node.id := hd.2.2 hpidpre
  have hpne : p.id ≠ c.id := fun heq => hpnotin (heq ▸ List.mem_cons_self _ _)
  have hppost : p.id ∉ post.map Node.id := fun hm => hpnotin (List.mem_cons_of_mem _ hm)
  have hacc1 : (lookupA (pre.foldl (assignStep (parentMapOf ns)) []) p.id).isSome = true :=
    lookupA_foldl_assign_isSome _ pre [] p.id (Or.inr hpidpre)
  obtain ⟨Lp, hLp⟩ := Option.isSome_iff_exists.mp hacc1
  have hAL : assign_layers ns (parentMapOf ns) =
      post.foldl (assignStep (parentMapOf ns))
        (assignStep (parentMapOf ns) (pre.foldl (assignStep (parentMapOf ns)) []) c) := by
    rw [assign_layers_eq, hsplit, List.foldl_append, List.foldl_cons]
  have hstepc : assignStep (parentMapOf ns) (pre.foldl (assignStep (parentMapOf ns)) []) c =
      (c.id, Lp + 1) :: pre.foldl (assignStep (parentMapOf ns)) [] := by
    simp only [assignStep, hunmapped,
      lookupA_parentMapOf ns hids pre post c hsplit, hpar, hLp, Option.getD_some]
  refine ⟨Lp, ?_, ?_⟩
  · rw [hAL, lookupA_foldl_assign_not_mem _ post _ p.id hppost, hstepc,
      lookupA_cons_ne c.id _ _ p.id (fun heq => hpne heq.symm)]
    exact hLp
  · rw [hAL, lookupA_foldl_assign_not_mem _ post _ c.id hpostc, hstepc,
      lookupA_cons_self]

/-- Core default fact: an unmapped-category node with no (truthy) parent
reference is assigned layer 0. -/
theorem assign_layers_parentless (ns : List Node) (hids : (ns.map Node.id).Nodup)
    (pre post : List Node) (c : Node) (hsplit : ns = pre ++ c :: post)
    (hunmapped : RESOURCE_LAYERS c.resourceType = none)
    (hnopar : truthyParent c = none) :
    lookupA (assign_layers ns (parentMapOf ns)) c.id = some 0 := by
  have hidsr : ((pre.map Node.id) ++ c.id :: post.map Node.id).Nodup := by
    rw [hsplit] at hids
    rw [List.map_append, List.map_cons] at hids
    exact hids
  have hd := List.nodup_append.mp hidsr
  have hpostc : c.id ∉ post.map Node.id := (List.nodup_cons.mp hd.2.1).1
  have hAL : assign_layers ns (parentMapOf ns) =
      post.foldl (assignStep (parentMapOf ns))
        (assignStep (parentMapOf ns) (pre.foldl (assignStep (parentMapOf ns)) []) c) := by
    rw [assign_layers_eq, hsplit, List.foldl_append, List.foldl_cons]
  have hstepc : assignStep (parentMapOf ns) (pre.foldl (assignStep (parentMapOf ns)) []) c =
      (c.id, 0) :: pre.foldl (assignStep (parentMapOf ns)) [] := by
    simp only [assignStep, hunmapped,
      lookupA_parentMapOf ns hids pre post c hsplit, hnopar]
  rw [hAL, lookupA_foldl_assign_not_mem _ post _ c.id hpostc, hstepc,
    lookupA_cons_self]

/-- **C6 (counterexample).** The claim asserts order-independence, but
`_assign_layers` reads `layers.get(parent, 1)` from the dict built so far:
with the child listed before its parent (both of unmapped category), the
child gets `1 + 1 = 2` while the parent ends at layer 0, so
`layer(child) ≠ layer(parent) + 1`. -/
theorem c6_counterexample_parent_after_child :
    lookupA (assign_layers
      [⟨"c", 0, 0, 10, 10, some "p", false, 1, "mystery"⟩,
       ⟨"p", 0, 0, 10, 10, none, false, 0, "mystery"⟩]
      (parentMapOf
      [⟨"c", 0, 0, 10, 10, some "p", false, 1, "mystery"⟩,
       ⟨"p", 0, 0, 10, 10, none, false, 0, "mystery"⟩])) "c" = some 2 ∧
    lookupA (assign_layers
      [⟨"c", 0, 0, 10, 10, some "p", false, 1, "mystery"⟩,
       ⟨"p", 0, 0, 10, 10, none, false, 0, "mystery"⟩]
      (parentMapOf
      [⟨"c", 0, 0, 10, 10, some "p", false, 1, "mystery"⟩,
       ⟨"p", 0, 0, 10, 10, none, false, 0, "mystery"⟩])) "p" = some 0 ∧
    (2 : Nat) ≠ 0 + 1 := by
  refine ⟨by decide, by decide, by decide⟩

/-- **C6 (amended).** In `_assign_layers`, a node whose resource category
has no entry in `RESOURCE_LAYERS`: (a) if it has a (truthy) parent
reference *and the parent node occurs earlier in the node list*, its
assigned layer is the parent's assigned layer plus 1; (b) if it has no
parent reference, its assigned layer is 0.  (When the parent occurs later,
the dict default 1 is used instead — see the counterexample — so the
original "regardless of order" quantification fails.)  Node ids are
assumed unique. -/
theorem c6_layer_inheritance_for_earlier_parent (ns : List Node)
    (hids : (ns.map Node.id).Nodup) :
    (∀ pre post (c : Node), ns = pre ++ c :: post →
      RESOURCE_LAYERS c.resourceType = none →
      ∀ p ∈ pre, truthyParent c = some p.id →
        ∃ Lp, lookupA (assign_layers ns (parentMapOf ns)) p.id = some Lp ∧
          lookupA (assign_layers ns (parentMapOf ns)) c.id = some (Lp + 1)) ∧
    (∀ pre post (c : Node), ns = pre ++ c :: post →
      RESOURCE_LAYERS c.resourceType = none →
      truthyParent c = none →
      lookupA (assign_layers ns (parentMapOf ns)) c.id = some 0) := by
  constructor
  · intro pre post c hsplit hunmapped p hp hpar
    exact assign_layers_inherits ns hids pre post c hsplit hunmapped p hp hpar
  · intro pre post c hsplit hunmapped hnopar
    exact assign_layers_parentless ns hids pre post c hsplit hunmapped hnopar

/-- Witness for the amended C6: parent listed first, unmapped child inherits
`layer(parent) + 1 = 1`, and a parentless unmapped node gets layer 0. -/
theorem c6_layer_inheritance_witness :
    ∃ Lp, lookupA (assign_layers
        [⟨"p", 0, 0, 10, 10, none, false, 0, "mystery"⟩,
         ⟨"c", 0, 0, 10, 10, some "p", false, 1, "mystery"⟩]
        (parentMapOf
        [⟨"p", 0, 0, 10, 10, none, false, 0, "mystery"⟩,
         ⟨"c", 0, 0, 10, 10, some "p", false, 1, "mystery"⟩])) "p" = some Lp ∧
      lookupA (assign_layers
        [⟨"p", 0, 0, 10, 10, none, false, 0, "mystery"⟩,
         ⟨"c", 0, 0, 10, 10, some "p", false, 1, "mystery"⟩]
        (parentMapOf
        [⟨"p", 0, 0, 10, 10, none, false, 0, "mystery"⟩,
         ⟨"c", 0, 0, 10, 10, some "p", false, 1, "mystery"⟩])) "c" = some (Lp + 1) :=
  (c6_layer_inheritance_for_earlier_parent
    [⟨"p", 0, 0, 10, 10, none, false, 0, "mystery"⟩,
     ⟨"c", 0, 0, 10, 10, some "p", false, 1, "mystery"⟩] (by decide)).1
    [⟨"p", 0, 0, 10, 10, none, false, 0, "mystery"⟩] []
    ⟨"c", 0, 0, 10, 10, some "p", false, 1, "mystery"⟩ (by decide) (by decide)
    ⟨"p", 0, 0, 10, 10, none, false, 0, "mystery"⟩ (by decide) (by decide)

/-- **C7 (counterexample).** The graph builder parents route tables to their
VPC (`_process_route_tables`, `parent_id=vpc_node_id`), and
`RESOURCE_LAYERS` maps both `vpc` and `routetable` to layer 1: the
containment edge route-table → VPC gets `layer(child) = layer(parent) = 1`,
not strictly greater. -/
theorem c7_counterexample_routetable_in_vpc :
    lookupA (assign_layers
      [⟨"vpc-1", 0, 0, 600, 400, some "region-us", true, 1, "vpc"⟩,
       ⟨"rt-1", 40, 260, 120, 88, some "vpc-1", false, 2, "routetable"⟩]
      (parentMapOf
      [⟨"vpc-1", 0, 0, 600, 400, some "region-us", true, 1, "vpc"⟩,
       ⟨"rt-1", 40, 260, 120, 88, some "vpc-1", false, 2, "routetable"⟩])) "rt-1" =
      some 1 ∧
    lookupA (assign_layers
      [⟨"vpc-1", 0, 0, 600, 400, some "region-us", true, 1, "vpc"⟩,
       ⟨"rt-1", 40, 260, 120, 88, some "vpc-1", false, 2, "routetable"⟩]
      (parentMapOf
      [⟨"vpc-1", 0, 0, 600, 400, some "region-us", true, 1, "vpc"⟩,
       ⟨"rt-1", 40, 260, 120, 88, some "vpc-1", false, 2, "routetable"⟩])) "vpc-1" =
      some 1 ∧
    ¬ (1 : Nat) > 1 := by
  refine ⟨by decide, by decide, by decide⟩

/-- **C7 (amended).** Layer monotonicity `layer(child) > layer(parent)`
holds for the containment edges whose child category is unmapped in
`RESOURCE_LAYERS` and whose parent node occurs earlier in the node list
(the child then gets `layer(parent) + 1`).  For table-mapped child
categories it can fail — a route table inside a VPC maps to the parent's
own layer (see the counterexample). -/
theorem c7_layer_monotone_for_unmapped_children (ns : List Node)
    (hids : (ns.map Node.id).Nodup) :
    ∀ pre post (c : Node), ns = pre ++ c :: post →
      RESOURCE_LAYERS c.resourceType = none →
      ∀ p ∈ pre, truthyParent c = some p.id →
        ∃ Lp Lc, lookupA (assign_layers ns (parentMapOf ns)) p.id = some Lp ∧
          lookupA (assign_layers ns (parentMapOf ns)) c.id = some Lc ∧ Lp < Lc := by
  intro pre post c hsplit hunmapped p hp hpar
  obtain ⟨Lp, hLp, hLc⟩ :=
    assign_layers_inherits ns hids pre post c hsplit hunmapped p hp hpar
  exact ⟨Lp, Lp + 1, hLp, hLc, Nat.lt_succ_self Lp⟩

/-- Witness for the amended C7: an unmapped child under an earlier parent
gets a strictly larger layer. -/
theorem c7_layer_monotone_witness :
    ∃ Lp Lc, lookupA (assign_layers
        [⟨"grp", 0, 0, 50, 50, none, true, 0, "mystery"⟩,
         ⟨"leaf", 0, 0, 10, 10, some "grp", false, 1, "mystery"⟩]
        (parentMapOf
        [⟨"grp", 0, 0, 50, 50, none, true, 0, "mystery"⟩,
         ⟨"leaf", 0, 0, 10, 10, some "grp", false, 1, "mystery"⟩])) "grp" = some Lp ∧
      lookupA (assign_layers
        [⟨"grp", 0, 0, 50, 50, none, true, 0, "mystery"⟩,
         ⟨"leaf", 0, 0, 10, 10, some "grp", false, 1, "mystery"⟩]
        (parentMapOf
        [⟨"grp", 0, 0, 50, 50, none, true, 0, "mystery"⟩,
         ⟨"leaf", 0, 0, 10, 10, some "grp", false, 1, "mystery"⟩])) "leaf" = some Lc ∧
      Lp < Lc :=
  c7_layer_monotone_for_unmapped_children
    [⟨"grp", 0, 0, 50, 50, none, true, 0, "mystery"⟩,
     ⟨"leaf", 0, 0, 10, 10, some "grp", false, 1, "mystery"⟩] (by decide)
    [⟨"grp", 0, 0, 50, 50, none, true, 0, "mystery"⟩] []
    ⟨"leaf", 0, 0, 10, 10, some "grp", false, 1, "mystery"⟩ (by decide) (by decide)
    ⟨"grp", 0, 0, 50, 50, none, true, 0, "mystery"⟩ (by decide) (by decide)

/-! ## Structural facts about `_order_nodes_by_barycenter` -/

theorem barycenter_no_neighbors (ns : List Node) (es : List EdgeR)
    (layers : List (String × Nat)) (k : Nat) (n : Node)
    (hempty : neighborXs ns es layers k n = []) :
    barycenter ns es layers k n = (n.x : ℚ) := by
  unfold barycenter
  rw [hempty]
  rfl

/-- Lookup in a dict built by prepending `(id, f id-node)` entries: with
unique ids the stored value of a member is its own. -/
theorem lookupA_foldl_entry_not_mem {β : Type} (f : Node → β) :
    ∀ (l : List Node) (acc : List (String × β)) (i : String),
      i ∉ l.map Node.id →
      lookupA (l.foldl (fun acc2 n => (n.id, f n) :: acc2) acc) i = lookupA acc i := by
  intro l
  induction l with
  | nil => intro acc i _; rfl
  | cons m t ih =>
    intro acc i hi
    rw [List.map_cons] at hi
    have h1 : i ≠ m.id := fun heq => hi (heq ▸ List.mem_cons_self _ _)
    have h2 : i ∉ t.map Node.id := fun hm => hi (List.mem_cons_of_mem _ hm)
    simp only [List.foldl_cons]
    rw [ih _ i h2, lookupA_cons_ne m.id _ acc i (fun heq => h1 heq.symm)]

theorem lookupA_foldl_entry_mem {β : Type} (f : Node → β) :
    ∀ (l : List Node) (acc : List (String × β)) (n : Node),
      (l.map Node.id).Nodup → n ∈ l →
      lookupA (l.foldl (fun acc2 n2 => (n2.id, f n2) :: acc2) acc) n.id = some (f n) := by
  intro l
  induction l with
  | nil => intro acc n _ hn; cases hn
  | cons m t ih =>
    intro acc n hnodup hn
    rw [List.map_cons] at hnodup
    have hmt : m.id ∉ t.map Node.id := (List.nodup_cons.mp hnodup).1
    simp only [List.foldl_cons]
    rcases List.mem_cons.mp hn with rfl | hnt
    · rw [lookupA_foldl_entry_not_mem f t _ n.id hmt, lookupA_cons_self]
    · exact ih _ n (List.nodup_cons.mp hnodup).2 hnt

theorem barycenters_eq (ns : List Node) (es : List EdgeR)
    (layers : List (String × Nat)) (k : Nat) (l : List Node) :
    barycenters ns es layers k l =
      l.foldl (fun acc2 n2 => (n2.id, barycenter ns es layers k n2) :: acc2) [] := rfl

theorem lookupA_barycenters (ns : List Node) (es : List EdgeR)
    (layers : List (String × Nat)) (k : Nat) (l : List Node)
    (hids : (l.map Node.id).Nodup) (n : Node) (hn : n ∈ l) :
    lookupA (barycenters ns es layers k l) n.id =
      some (barycenter ns es layers k n) := by
  rw [barycenters_eq]
  exact lookupA_foldl_entry_mem _ l [] n hids hn

/-- **C8 (counterexample).** Three same-layer nodes with no inter-layer
neighbors keep their own x as barycenter, so the stable ascending sort
orders them by current x: for x-positions 2, 1, 0 the pass *reverses*
their relative order instead of preserving it. -/
theorem c8_counterexample_isolated_nodes_reordered :
    order_nodes_by_barycenter
      [⟨"n1", 2, 0, 10, 10, none, false, 0, "mystery"⟩,
       ⟨"n2", 1, 0, 10, 10, none, false, 0, "mystery"⟩,
       ⟨"n3", 0, 0, 10, 10, none, false, 0, "mystery"⟩] []
      (assign_layers
        [⟨"n1", 2, 0, 10, 10, none, false, 0, "mystery"⟩,
         ⟨"n2", 1, 0, 10, 10, none, false, 0, "mystery"⟩,
         ⟨"n3", 0, 0, 10, 10, none, false, 0, "mystery"⟩]
        (parentMapOf
        [⟨"n1", 2, 0, 10, 10, none, false, 0, "mystery"⟩,
         ⟨"n2", 1, 0, 10, 10, none, false, 0, "mystery"⟩,
         ⟨"n3", 0, 0, 10, 10, none, false, 0, "mystery"⟩])) =
      [(0, [⟨"n3", 0, 0, 10, 10, none, false, 0, "mystery"⟩,
            ⟨"n2", 1, 0, 10, 10, none, false, 0, "mystery"⟩,
            ⟨"n1", 2, 0, 10, 10, none, false, 0, "mystery"⟩])] ∧
    ([⟨"n3", 0, 0, 10, 10, none, false, 0, "mystery"⟩,
      ⟨"n2", 1, 0, 10, 10, none, false, 0, "mystery"⟩,
      ⟨"n1", 2, 0, 10, 10, none, false, 0, "mystery"⟩] : List Node) ≠
     [⟨"n1", 2, 0, 10, 10, none, false, 0, "mystery"⟩,
      ⟨"n2", 1, 0, 10, 10, none, false, 0, "mystery"⟩,
      ⟨"n3", 0, 0, 10, 10, none, false, 0, "mystery"⟩] := by
  refine ⟨by decide, by decide⟩

/-- **C8 (amended).** A node with no edge-connected cross-layer neighbor
gets its own current x as barycenter, and the per-layer sort is a stable
ascending sort by barycenter.  Consequently a layer of such nodes keeps
its original relative order *provided its x-coordinates are already weakly
ascending in list order* (in particular when they are all equal); with
unordered x-coordinates the sort reorders them (see the counterexample).
Node ids are assumed unique within the layer. -/
theorem c8_isolated_layer_kept_when_x_sorted (ns : List Node) (es : List EdgeR)
    (layers : List (String × Nat)) (k : Nat)
    (hids : ((nodesInLayer ns layers k).map Node.id).Nodup)
    (hno : ∀ n ∈ nodesInLayer ns layers k, neighborXs ns es layers k n = [])
    (hsorted : (nodesInLayer ns layers k).Pairwise (fun a b => a.x ≤ b.x)) :
    (∀ n ∈ nodesInLayer ns layers k, barycenter ns es layers k n = (n.x : ℚ)) ∧
    sortLayerByBarycenter ns es layers k = nodesInLayer ns layers k := by
  have hbary : ∀ n ∈ nodesInLayer ns layers k,
      barycenter ns es layers k n = (n.x : ℚ) := by
    intro n hn
    exact barycenter_no_neighbors ns es layers k n (hno n hn)
  refine ⟨hbary, ?_⟩
  show sSort _ (nodesInLayer ns layers k) = nodesInLayer ns layers k
  refine sSort_of_sorted ?_
  refine hsorted.imp_of_mem ?_
  intro a b ha hb hab
  have hka : lookupA (barycenters ns es layers k (nodesInLayer ns layers k)) a.id =
      some (barycenter ns es layers k a) :=
    lookupA_barycenters ns es layers k _ hids a ha
  have hkb : lookupA (barycenters ns es layers k (nodesInLayer ns layers k)) b.id =
      some (barycenter ns es layers k b) :=
    lookupA_barycenters ns es layers k _ hids b hb
  rw [hka, hkb, hbary a ha, hbary b hb]
  simp only [Option.getD_some]
  exact decide_eq_true (by exact_mod_cast hab)

/-- Witness for the amended C8: three equal-x isolated nodes are left in
their original relative order by the ordering pass. -/
theorem c8_isolated_layer_kept_witness :
    sortLayerByBarycenter
      [⟨"n1", 5, 0, 10, 10, none, false, 0, "mystery"⟩,
       ⟨"n2", 5, 0, 10, 10, none, false, 0, "mystery"⟩,
       ⟨"n3", 5, 0, 10, 10, none, false, 0, "mystery"⟩] []
      (assign_layers
        [⟨"n1", 5, 0, 10, 10, none, false, 0, "mystery"⟩,
         ⟨"n2", 5, 0, 10, 10, none, false, 0, "mystery"⟩,
         ⟨"n3", 5, 0, 10, 10, none, false, 0, "mystery"⟩]
        (parentMapOf
        [⟨"n1", 5, 0, 10, 10, none, false, 0, "mystery"⟩,
         ⟨"n2", 5, 0, 10, 10, none, false, 0, "mystery"⟩,
         ⟨"n3", 5, 0, 10, 10, none, false, 0, "mystery"⟩])) 0 =
      nodesInLayer
        [⟨"n1", 5, 0, 10, 10, none, false, 0, "mystery"⟩,
         ⟨"n2", 5, 0, 10, 10, none, false, 0, "mystery"⟩,
         ⟨"n3", 5, 0, 10, 10, none, false, 0, "mystery"⟩]
        (assign_layers
          [⟨"n1", 5, 0, 10, 10, none, false, 0, "mystery"⟩,
           ⟨"n2", 5, 0, 10, 10, none, false, 0, "mystery"⟩,
           ⟨"n3", 5, 0, 10, 10, none, false, 0, "mystery"⟩]
          (parentMapOf
          [⟨"n1", 5, 0, 10, 10, none, false, 0, "mystery"⟩,
           ⟨"n2", 5, 0, 10, 10, none, false, 0, "mystery"⟩,
           ⟨"n3", 5, 0, 10, 10, none, false, 0, "mystery"⟩])) 0 :=
  (c8_isolated_layer_kept_when_x_sorted
    [⟨"n1", 5, 0, 10, 10, none, false, 0, "mystery"⟩,
     ⟨"n2", 5, 0, 10, 10, none, false, 0, "mystery"⟩,
     ⟨"n3", 5, 0, 10, 10, none, false, 0, "mystery"⟩] []
    (assign_layers
      [⟨"n1", 5, 0, 10, 10, none, false, 0, "mystery"⟩,
       ⟨"n2", 5, 0, 10, 10, none, false, 0, "mystery"⟩,
       ⟨"n3", 5, 0, 10, 10, none, false, 0, "mystery"⟩]
      (parentMapOf
      [⟨"n1", 5, 0, 10, 10, none, false, 0, "mystery"⟩,
       ⟨"n2", 5, 0, 10, 10, none, false, 0, "mystery"⟩,
       ⟨"n3", 5, 0, 10, 10, none, false, 0, "mystery"⟩])) 0
    (by decide) (by decide) (by decide)).2

/-! ## Structural facts about the edge builders -/

theorem lookupA_mem {β : Type} :
    ∀ {l : List (String × β)} {i : String} {v : β},
      lookupA l i = some v → (i, v) ∈ l := by
  intro l
  induction l with
  | nil => intro i v h; cases h
  | cons kv rest ih =>
    intro i v h
    match kv with
    | (k, w) =>
      by_cases hk : k = i
      · subst hk
        rw [lookupA_cons_self] at h
        cases h
        exact List.mem_cons_self _ _
      · rw [lookupA_cons_ne k w rest i hk] at h
        exact List.mem_cons_of_mem _ (ih h)

/-- One association step of `_create_rt_subnet_edges`. -/
def rtAssocStep (rtNodeId : String) (st2 : ConvState) (a : Option String) : ConvState :=
  match truthyStr a with
  | none => st2
  | some sid =>
    match lookupA st2.subnetNodeMap sid with
    | some pr => create_edge st2 rtNodeId pr.1 "rt-to-subnet"
    | none => st2

/-- One record step of `_create_rt_subnet_edges`. -/
def rtRecStep (st1 : ConvState) (rt : RouteTableRec) : ConvState :=
  match rt.routeTableId.bind (lookupA st1.rtNodeMap) with
  | none => st1
  | some rtNodeId => rt.associationSubnetIds.foldl (rtAssocStep rtNodeId) st1

theorem create_rt_subnet_edges_eq (st : ConvState) (rts : List RouteTableRec) :
    create_rt_subnet_edges st rts = rts.foldl rtRecStep st := rfl

theorem rtAssocStep_skip_untruthy (rtNodeId : String) (st : ConvState)
    (a : Option String) (h : truthyStr a = none) : rtAssocStep rtNodeId st a = st := by
  simp only [rtAssocStep, h]

theorem rtAssocStep_skip_unmapped (rtNodeId : String) (st : ConvState)
    (a : Option String) (sid : String) (h1 : truthyStr a = some sid)
    (h2 : lookupA st.subnetNodeMap sid = none) : rtAssocStep rtNodeId st a = st := by
  simp only [rtAssocStep, h1, h2]

theorem rtAssocStep_emit (rtNodeId : String) (st : ConvState)
    (a : Option String) (sid : String) (pr : String × String)
    (h1 : truthyStr a = some sid)
    (h2 : lookupA st.subnetNodeMap sid = some pr) :
    rtAssocStep rtNodeId st a = create_edge st rtNodeId pr.1 "rt-to-subnet" := by
  simp only [rtAssocStep, h1, h2]

theorem rtRecStep_skip (st : ConvState) (rt : RouteTableRec)
    (h : rt.routeTableId.bind (lookupA st.rtNodeMap) = none) : rtRecStep st rt = st := by
  simp only [rtRecStep, h]

theorem rtRecStep_found (st : ConvState) (rt : RouteTableRec) (rtNodeId : String)
    (h : rt.routeTableId.bind (lookupA st.rtNodeMap) = some rtNodeId) :
    rtRecStep st rt = rt.associationSubnetIds.foldl (rtAssocStep rtNodeId) st := by
  simp only [rtRecStep, h]

/-- The association fold of one record never touches the nodes or the maps,
and every edge it appends has both endpoints in the (unchanged) node
collection. -/
theorem rtAssocFold_spec (rtNodeId : String) :
    ∀ (assocs : List (Option String)) (st : ConvState),
      (∃ n ∈ st.nodes, n.id = rtNodeId) →
      (∀ pr ∈ st.subnetNodeMap, ∃ n ∈ st.nodes, n.id = pr.2.1) →
      (∀ e ∈ st.edges, (∃ n ∈ st.nodes, n.id = e.source) ∧
        (∃ n ∈ st.nodes, n.id = e.target)) →
      (assocs.foldl (rtAssocStep rtNodeId) st).nodes = st.nodes ∧
      (assocs.foldl (rtAssocStep rtNodeId) st).rtNodeMap = st.rtNodeMap ∧
      (assocs.foldl (rtAssocStep rtNodeId) st).subnetNodeMap = st.subnetNodeMap ∧
      (∀ e ∈ (assocs.foldl (rtAssocStep rtNodeId) st).edges,
        (∃ n ∈ st.nodes, n.id = e.source) ∧ (∃ n ∈ st.nodes, n.id = e.target)) := by
  intro assocs
  induction assocs with
  | nil => intro st hrt hsub hpre; exact ⟨rfl, rfl, rfl, hpre⟩
  | cons a t ih =>
    intro st hrt hsub hpre
    simp only [List.foldl_cons]
    have hstep : (rtAssocStep rtNodeId st a).nodes = st.nodes ∧
        (rtAssocStep rtNodeId st a).rtNodeMap = st.rtNodeMap ∧
        (rtAssocStep rtNodeId st a).subnetNodeMap = st.subnetNodeMap ∧
        (∀ e ∈ (rtAssocStep rtNodeId st a).edges,
          (∃ n ∈ st.nodes, n.id = e.source) ∧ (∃ n ∈ st.nodes, n.id = e.target)) := by
      cases htp : truthyStr a with
      | none =>
        rw [rtAssocStep_skip_untruthy rtNodeId st a htp]
        exact ⟨rfl, rfl, rfl, hpre⟩
      | some sid =>
        cases hlk : lookupA st.subnetNodeMap sid with
        | none =>
          rw [rtAssocStep_skip_unmapped rtNodeId st a sid htp hlk]
          exact ⟨rfl, rfl, rfl, hpre⟩
        | some pr =>
          rw [rtAssocStep_emit rtNodeId st a sid pr htp hlk]
          refine ⟨rfl, rfl, rfl, ?_⟩
          intro e he
          rcases List.mem_append.mp he with hold | hnew
          · exact hpre e hold
          · rcases List.mem_singleton.mp hnew with rfl
            exact ⟨⟨_, hrt.choose_spec.1, hrt.choose_spec.2⟩,
              hsub (sid, pr) (lookupA_mem hlk)⟩
    obtain ⟨hn, hm1, hm2, hinv⟩ := hstep
    have hrec := ih (rtAssocStep rtNodeId st a)
      (by rw [hn]; exact hrt)
      (by rw [hn, hm2]; exact hsub)
      (by rw [hn]; exact hinv)
    obtain ⟨a1, a2, a3, a4⟩ := hrec
    refine ⟨by rw [a1, hn], by rw [a2, hm1], by rw [a3, hm2], ?_⟩
    intro e he
    have := a4 e he
    rw [hn] at this
    exact this

/-- **C9.** Every edge appended by `_create_rt_subnet_edges` has a source
and a target that are ids of nodes in the node collection: the route-table
endpoint comes from `rt_node_map` and the subnet endpoint from
`subnet_node_map`, both of which index only created nodes (the map
invariants are the hypotheses); a record or association whose reference is
missing from the maps is silently skipped and yields no edge, and the node
collection itself is never modified. -/
theorem c9_rt_subnet_edges_endpoints_exist (st : ConvState) (rts : List RouteTableRec)
    (hrt : ∀ pr ∈ st.rtNodeMap, ∃ n ∈ st.nodes, n.id = pr.2)
    (hsub : ∀ pr ∈ st.subnetNodeMap, ∃ n ∈ st.nodes, n.id = pr.2.1)
    (hpre : ∀ e ∈ st.edges, (∃ n ∈ st.nodes, n.id = e.source) ∧
      (∃ n ∈ st.nodes, n.id = e.target)) :
    (create_rt_subnet_edges st rts).nodes = st.nodes ∧
    ∀ e ∈ (create_rt_subnet_edges st rts).edges,
      (∃ n ∈ (create_rt_subnet_edges st rts).nodes, n.id = e.source) ∧
      (∃ n ∈ (create_rt_subnet_edges st rts).nodes, n.id = e.target) := by
  rw [create_rt_subnet_edges_eq]
  induction rts generalizing st with
  | nil => exact ⟨rfl, hpre⟩
  | cons rt trt ih =>
    simp only [List.foldl_cons]
    cases hbind : rt.routeTableId.bind (lookupA st.rtNodeMap) with
    | none =>
      rw [rtRecStep_skip st rt hbind]
      exact ih st hrt hsub hpre
    | some rtNodeId =>
      rw [rtRecStep_found st rt rtNodeId hbind]
      have hrtid : ∃ n ∈ st.nodes, n.id = rtNodeId := by
        cases hrtid2 : rt.routeTableId with
        | none => rw [hrtid2] at hbind; cases hbind
        | some rid =>
          rw [hrtid2] at hbind
          have hb2 : lookupA st.rtNodeMap rid = some rtNodeId := hbind
          exact hrt (rid, rtNodeId) (lookupA_mem hb2)
      obtain ⟨hn, hm1, hm2, hinv⟩ :=
        rtAssocFold_spec rtNodeId rt.associationSubnetIds st hrtid hsub hpre
      have := ih (rt.associationSubnetIds.foldl (rtAssocStep rtNodeId) st)
        (by rw [hn, hm1]; exact hrt)
        (by rw [hn, hm2]; exact hsub)
        (by rw [hn]; exact hinv)
      rw [hn] at this
      exact this

/-- Witness for C9: a record with one resolvable association and one
association naming a subnet id absent from the map yields exactly the one
well-founded edge; both endpoints exist among the (unchanged) nodes. -/
theorem c9_rt_subnet_edges_witness :
    (create_rt_subnet_edges
      ⟨[⟨"rt-r1", 0, 0, 120, 88, some "vpc-v1", false, 2, "routetable"⟩,
        ⟨"subnet-s1", 0, 0, 200, 80, some "vpc-v1", true, 2, "subnet"⟩], [],
       [("r1", "rt-r1")], [("s1", ("subnet-s1", "vpc-v1"))]⟩
      [⟨some "r1", [some "s1", some "missing"]⟩]).nodes =
      [⟨"rt-r1", 0, 0, 120, 88, some "vpc-v1", false, 2, "routetable"⟩,
       ⟨"subnet-s1", 0, 0, 200, 80, some "vpc-v1", true, 2, "subnet"⟩] ∧
    ∀ e ∈ (create_rt_subnet_edges
      ⟨[⟨"rt-r1", 0, 0, 120, 88, some "vpc-v1", false, 2, "routetable"⟩,
        ⟨"subnet-s1", 0, 0, 200, 80, some "vpc-v1", true, 2, "subnet"⟩], [],
       [("r1", "rt-r1")], [("s1", ("subnet-s1", "vpc-v1"))]⟩
      [⟨some "r1", [some "s1", some "missing"]⟩]).edges,
      (∃ n ∈ (create_rt_subnet_edges
        ⟨[⟨"rt-r1", 0, 0, 120, 88, some "vpc-v1", false, 2, "routetable"⟩,
          ⟨"subnet-s1", 0, 0, 200, 80, some "vpc-v1", true, 2, "subnet"⟩], [],
         [("r1", "rt-r1")], [("s1", ("subnet-s1", "vpc-v1"))]⟩
        [⟨some "r1", [some "s1", some "missing"]⟩]).nodes, n.id = e.source) ∧
      (∃ n ∈ (create_rt_subnet_edges
        ⟨[⟨"rt-r1", 0, 0, 120, 88, some "vpc-v1", false, 2, "routetable"⟩,
          ⟨"subnet-s1", 0, 0, 200, 80, some "vpc-v1", true, 2, "subnet"⟩], [],
         [("r1", "rt-r1")], [("s1", ("subnet-s1", "vpc-v1"))]⟩
        [⟨some "r1", [some "s1", some "missing"]⟩]).nodes, n.id = e.target) :=
  c9_rt_subnet_edges_endpoints_exist
    ⟨[⟨"rt-r1", 0, 0, 120, 88, some "vpc-v1", false, 2, "routetable"⟩,
      ⟨"subnet-s1", 0, 0, 200, 80, some "vpc-v1", true, 2, "subnet"⟩], [],
     [("r1", "rt-r1")], [("s1", ("subnet-s1", "vpc-v1"))]⟩
    [⟨some "r1", [some "s1", some "missing"]⟩]
    (by decide) (by decide) (by decide)

/-- **C10.** `_order_nodes_by_barycenter` sorts lists local to itself and
returns `None`: it mutates no node and no edge, and neither
`_calculate_positions` nor `_size_containers` reads anything it computed.
Hence `apply_layout` returns exactly what it would return with the
ordering phase deleted: the two pipelines agree on every input. -/
theorem c10_ordering_pass_has_no_effect :
    ∀ (ns : List Node) (es : List EdgeR),
      apply_layout ns es = apply_layout_without_ordering ns es :=
  fun _ _ => rfl
